import Mathlib

/-!
Verification model of `decode_token.py`.

The program (verbatim, 10 lines of Python):

```
from pathlib import Path
from base64 import b64decode
from sys import argv
from json import loads, dumps

if __name__ == "__main__":
    path = Path.home().joinpath("AppData", "Local", "tupy", f"spotify.{argv[1]}.token")
    if path.exists():
        with path.open("r") as f:
            print(dumps(loads(b64decode(f.read())), indent=2))
```

Every definition below is a shallow embedding of either a line of this
script or of the exact CPython standard-library semantics it invokes
(`base64.b64decode` with `validate=False`, `json.loads` including its
byte-level encoding detection, `json.dumps` with `indent=2` and default
`ensure_ascii=True`, `pathlib.Path.home()` via `os.path.expanduser("~")`,
`print`).  Scope limits of the model are stated in doc comments where
they occur: JSON floats (`1.5`, `NaN`, `Infinity`) are carried opaquely
and excluded from serialization theorems via `floatFree` (floating point
is outside the embedding), and the UTF-16/UTF-32 branches of
`json.detect_encoding` are detected but their decoding is not modelled
(theorems about parsed content restrict to the UTF-8 detection branches).
-/

namespace DecodeToken

/-! ## Characters, digits, hexadecimal -/

/-- JSON whitespace, exactly the four characters of `json.decoder.WHITESPACE`. -/
def isWs (c : Char) : Bool :=
  c = ' ' || c = '\t' || c = '\n' || c = '\r'

/-- Decimal digit test. -/
def isDig (c : Char) : Bool :=
  '0' ≤ c && c ≤ '9'

/-- Nonzero decimal digit test. -/
def isDig19 (c : Char) : Bool :=
  '1' ≤ c && c ≤ '9'

/-- Character of a decimal digit. -/
def digitCh (d : Nat) : Char := Char.ofNat (48 + d)

/-- Lowercase hexadecimal digit character, as produced by Python's `"%04x"`. -/
def hexCh (d : Nat) : Char :=
  if d < 10 then Char.ofNat (48 + d) else Char.ofNat (87 + d)

/-- Value of one hexadecimal digit, strict (the C scanner of `json`
accepts exactly `0-9`, `a-f`, `A-F`). -/
def hexVal (c : Char) : Option Nat :=
  if '0' ≤ c ∧ c ≤ '9' then some (c.toNat - 48)
  else if 'a' ≤ c ∧ c ≤ 'f' then some (c.toNat - 87)
  else if 'A' ≤ c ∧ c ≤ 'F' then some (c.toNat - 55)
  else none

/-- Four lowercase hex digits of a value below `0x10000`
(Python `'\\u%04x'`). -/
def hex4 (n : Nat) : List Char :=
  [hexCh (n / 4096 % 16), hexCh (n / 256 % 16), hexCh (n / 16 % 16), hexCh (n % 16)]

/-- Numeric value of a decimal digit string (most significant first). -/
def digitsVal (l : List Char) : Nat :=
  l.foldl (fun a c => a * 10 + (c.toNat - 48)) 0

/-- Decimal digits of a natural number, fuelled so that the kernel can
evaluate it; `fuel > n` always suffices. -/
def natDigitsAux : Nat → Nat → List Char
  | 0, _ => []
  | f + 1, n => if n < 10 then [digitCh n] else natDigitsAux f (n / 10) ++ [digitCh (n % 10)]

/-- Decimal digit characters of `n`, no leading zeros (`"0"` for zero);
this is the decimal form `int.__repr__` prints. -/
def natDigits (n : Nat) : List Char := natDigitsAux (n + 1) n

/-- Characters of Python's `repr` of an `int`: optional minus sign then
decimal digits. -/
def intRepr (n : Int) : List Char :=
  if n < 0 then '-' :: natDigits n.natAbs else natDigits n.toNat

/-! ## The JSON data model

`json.loads` yields `None`, `bool`, `int`, `float`, `str`, `list`, `dict`.
Strings are lists of Unicode code points (`List Nat`), not Lean `String`,
because CPython strings may hold lone surrogates (reachable through
`\uD800`-style escapes).  Floats (`float` results of the number grammar
and the `NaN`/`Infinity` constants) are carried as their source lexeme in
`fnum`; serialization of floats is not modelled, and all serialization
theorems exclude them through `floatFree`. -/

mutual

inductive Json where
  | null : Json
  | bool : Bool → Json
  | num : Int → Json
  | fnum : List Char → Json
  | str : List Nat → Json
  | arr : JArr → Json
  | obj : JObj → Json
  deriving DecidableEq

inductive JArr where
  | nil : JArr
  | cons : Json → JArr → JArr
  deriving DecidableEq

inductive JObj where
  | nil : JObj
  | cons : List Nat → Json → JObj → JObj
  deriving DecidableEq

end

/-! ## Serialization: `json.dumps(v, indent=2)` -/

/-- Indentation prefix at nesting level `lvl` (`indent=2`). -/
def ind (lvl : Nat) : List Char := List.replicate (2 * lvl) ' '

/-- Escape of one code point under `ensure_ascii=True`
(`json.encoder.py_encode_basestring_ascii`): two-character shortcuts for
`\" \\ \b \f \n \r \t`, `\u00xx` for remaining control characters,
printable ASCII verbatim, `\uxxxx` for every other BMP code point (lone
surrogates included) and a surrogate pair for astral code points. -/
def escCp (cp : Nat) : List Char :=
  if cp = 34 then ['\\', '"']
  else if cp = 92 then ['\\', '\\']
  else if cp = 8 then ['\\', 'b']
  else if cp = 12 then ['\\', 'f']
  else if cp = 10 then ['\\', 'n']
  else if cp = 13 then ['\\', 'r']
  else if cp = 9 then ['\\', 't']
  else if cp < 0x20 then '\\' :: 'u' :: hex4 cp
  else if cp < 0x7f then [Char.ofNat cp]
  else if cp < 0x10000 then '\\' :: 'u' :: hex4 cp
  else
    '\\' :: 'u' :: hex4 (0xD800 + (cp - 0x10000) / 0x400) ++
      ('\\' :: 'u' :: hex4 (0xDC00 + (cp - 0x10000) % 0x400))

/-- Escaped body of a string. -/
def escStr (s : List Nat) : List Char :=
  s.foldr (fun cp acc => escCp cp ++ acc) []

/-- A double-quoted, escaped JSON string literal. -/
def quoteStr (s : List Nat) : List Char := '"' :: escStr s ++ ['"']

mutual

/-- Characters printed for a value by `json.dumps(v, indent=2)` at
nesting level `lvl`.  With an indent, items are separated by `",\n"` plus
indentation and keys by `": "`; empty containers print as `[]` and
`\x7b\x7d`.  The `fnum` branch prints the stored lexeme: this is a model
placeholder (Python would print the float's repr), and every theorem
about printed output excludes it via `floatFree`. -/
def printVal : Nat → Json → List Char
  | _, .null => ['n', 'u', 'l', 'l']
  | _, .bool true => ['t', 'r', 'u', 'e']
  | _, .bool false => ['f', 'a', 'l', 's', 'e']
  | _, .num n => intRepr n
  | _, .fnum lex => lex
  | _, .str s => quoteStr s
  | _, .arr .nil => ['[', ']']
  | lvl, .arr (.cons x xs) =>
    '[' :: '\n' :: (ind (lvl + 1) ++ printVal (lvl + 1) x ++ printArrTail (lvl + 1) xs ++
      '\n' :: (ind lvl ++ [']']))
  | _, .obj .nil => ['\x7b', '\x7d']
  | lvl, .obj (.cons k v ps) =>
    '\x7b' :: '\n' :: (ind (lvl + 1) ++ quoteStr k ++ ':' :: ' ' :: printVal (lvl + 1) v ++
      printObjTail (lvl + 1) ps ++ '\n' :: (ind lvl ++ ['\x7d']))

/-- Remaining array items, each preceded by `",\n"` and indentation. -/
def printArrTail : Nat → JArr → List Char
  | _, .nil => []
  | lvl, .cons x xs => ',' :: '\n' :: (ind lvl ++ printVal lvl x ++ printArrTail lvl xs)

/-- Remaining object members, each preceded by `",\n"` and indentation. -/
def printObjTail : Nat → JObj → List Char
  | _, .nil => []
  | lvl, .cons k v ps =>
    ',' :: '\n' :: (ind lvl ++ quoteStr k ++ ':' :: ' ' :: printVal lvl v ++ printObjTail lvl ps)

end

/-- `json.dumps(v, indent=2)` as a string. -/
def dumps (v : Json) : String := String.mk (printVal 0 v)

/-! ## Parsing: `json.loads`

The scanner below mirrors CPython's `json` scanner (the C `_json`
extension, which is what `loads` uses): strings with strict control
character rejection and surrogate pair combination, the
`-?(0|[1-9]\d*)(\.\d+)?([eE][+-]?\d+)?` number grammar (`int` when
neither fraction nor exponent is present, `float` otherwise), the
constants `NaN`, `Infinity`, `-Infinity`, and objects built with `dict`
semantics (a repeated key keeps its first position and takes its last
value).  Recursion is fuelled; every step consumes at least one
character, so a fuel larger than the input length always suffices. -/

/-- Drop leading JSON whitespace. -/
def skipWs : List Char → List Char
  | c :: cs => if isWs c then skipWs cs else c :: cs
  | [] => []

/-- Strict parse of exactly four hexadecimal digits (the input may be
longer; only the first four characters are examined). -/
def parseHex4 : List Char → Option Nat
  | a :: b :: c :: d :: _ =>
    match hexVal a, hexVal b, hexVal c, hexVal d with
    | some va, some vb, some vc, some vd => some (((va * 16 + vb) * 16 + vc) * 16 + vd)
    | _, _, _, _ => none
  | _ => none

/-- Code point of a two-character escape (`\b \f \n \r \t \" \\ \/`). -/
def escShort (c : Char) : Option Nat :=
  if c = '"' then some 34
  else if c = '\\' then some 92
  else if c = '/' then some 47
  else if c = 'b' then some 8
  else if c = 'f' then some 12
  else if c = 'n' then some 10
  else if c = 'r' then some 13
  else if c = 't' then some 9
  else none

/-- Scan a string body up to the closing quote (`scanstring`, strict
mode): raw control characters below `0x20` are rejected, `\uXXXX`
escapes are read with strict hex digits, and a high surrogate escape
immediately followed by a low surrogate escape combines into one astral
code point, exactly as in CPython. -/
def parseStringBody : Nat → List Char → Option (List Nat × List Char)
  | 0, _ => none
  | _ + 1, [] => none
  | f + 1, c :: cs =>
    if c = '"' then some ([], cs)
    else if c = '\\' then
      match cs with
      | [] => none
      | e :: cs2 =>
        if e = 'u' then
          match parseHex4 cs2 with
          | none => none
          | some u =>
            let cs3 := cs2.drop 4
            if 0xD800 ≤ u ∧ u ≤ 0xDBFF then
              if cs3.take 2 = ['\\', 'u'] then
                match parseHex4 (cs3.drop 2) with
                | none => none
                | some u2 =>
                  if 0xDC00 ≤ u2 ∧ u2 ≤ 0xDFFF then
                    (parseStringBody f (cs3.drop 6)).map
                      (fun p => ((0x10000 + (u - 0xD800) * 0x400 + (u2 - 0xDC00)) :: p.1, p.2))
                  else
                    (parseStringBody f cs3).map (fun p => (u :: p.1, p.2))
              else (parseStringBody f cs3).map (fun p => (u :: p.1, p.2))
            else (parseStringBody f cs3).map (fun p => (u :: p.1, p.2))
        else
          match escShort e with
          | some cp => (parseStringBody f cs2).map (fun p => (cp :: p.1, p.2))
          | none => none
    else if c.toNat < 0x20 then none
    else (parseStringBody f cs).map (fun p => (c.toNat :: p.1, p.2))

/-- Longest decimal digit run at the head of the input. -/
def spanDigits : List Char → List Char × List Char
  | [] => ([], [])
  | c :: cs =>
    if isDig c then
      let p := spanDigits cs
      (c :: p.1, p.2)
    else ([], c :: cs)

/-- Optional fraction part `\.\d+` of the number grammar; returns the
consumed characters (empty when absent, with no partial consumption). -/
def numFrac : List Char → List Char × List Char
  | '.' :: c :: cs =>
    if isDig c then
      let p := spanDigits cs
      ('.' :: c :: p.1, p.2)
    else ([], '.' :: c :: cs)
  | l => ([], l)

/-- Optional exponent part `[eE][-+]?\d+`; no partial consumption. -/
def numExp (l : List Char) : List Char × List Char :=
  match l with
  | e :: rest =>
    if e = 'e' ∨ e = 'E' then
      match rest with
      | s :: rest2 =>
        if s = '+' ∨ s = '-' then
          match spanDigits rest2 with
          | ([], _) => ([], l)
          | (ds, r) => (e :: s :: ds, r)
        else
          match spanDigits rest with
          | ([], _) => ([], l)
          | (ds, r) => (e :: ds, r)
      | [] => ([], l)
    else ([], l)
  | [] => ([], l)

/-- Number match (`NUMBER_RE` plus `int`/`float` choice): a minus sign,
an integer part with no leading zeros, then optional fraction and
exponent.  Without fraction and exponent the result is `int(...)`
(`Json.num`); otherwise the matched lexeme is kept as a `float`
(`Json.fnum`). -/
def parseNumber (l : List Char) : Option (Json × List Char) :=
  let neg := match l with
    | c :: _ => c == '-'
    | [] => false
  let l1 := if neg then l.tail else l
  match l1 with
  | c :: cs =>
    if c = '0' ∨ isDig19 c then
      let intDs : List Char × List Char :=
        if c = '0' then (['0'], cs)
        else
          let p := spanDigits cs
          (c :: p.1, p.2)
      let fr := numFrac intDs.2
      let ex := numExp fr.2
      if fr.1 = [] ∧ ex.1 = [] then
        let n : Int := Int.ofNat (digitsVal intDs.1)
        some (Json.num (if neg then -n else n), intDs.2)
      else
        some (Json.fnum ((if neg then ['-'] else []) ++ intDs.1 ++ fr.1 ++ ex.1), ex.2)
    else none
  | [] => none

/-- Update an object with one parsed member under `dict` semantics: an
existing key keeps its position and takes the new value, a new key is
appended. -/
def insertR : JObj → List Nat → Json → JObj
  | .nil, k, v => .cons k v .nil
  | .cons k' v' ps, k, v =>
    if k' = k then .cons k' v ps else .cons k' v' (insertR ps k v)

/-- Fold a parsed member list into an object, in order (`pairs[key] = value`
executed sequentially on a `dict`). -/
def objOf (l : List (List Nat × Json)) : JObj :=
  l.foldl (fun o kv => insertR o kv.1 kv.2) .nil

mutual

/-- One JSON value at the head of the input (whitespace already
skipped), dispatching exactly like `scan_once`: string, object, array,
`null` / `true` / `false`, number, then the non-standard constants. -/
def parseVal : Nat → List Char → Option (Json × List Char)
  | 0, _ => none
  | f + 1, l =>
    match l with
    | [] => none
    | c :: cs =>
      if c = '"' then
        (parseStringBody (cs.length + 1) cs).map (fun p => (Json.str p.1, p.2))
      else if c = '\x7b' then
        match skipWs cs with
        | '\x7d' :: r => some (Json.obj .nil, r)
        | l1 => (parseMembers f l1).map (fun p => (Json.obj (objOf p.1), p.2))
      else if c = '[' then
        match skipWs cs with
        | ']' :: r => some (Json.arr .nil, r)
        | l1 => (parseItems f l1).map (fun p => (Json.arr p.1, p.2))
      else if l.take 4 = ['n', 'u', 'l', 'l'] then some (Json.null, l.drop 4)
      else if l.take 4 = ['t', 'r', 'u', 'e'] then some (Json.bool true, l.drop 4)
      else if l.take 5 = ['f', 'a', 'l', 's', 'e'] then some (Json.bool false, l.drop 5)
      else
        match parseNumber l with
        | some r => some r
        | none =>
          if l.take 3 = ['N', 'a', 'N'] then some (Json.fnum ['N', 'a', 'N'], l.drop 3)
          else if l.take 8 = ['I', 'n', 'f', 'i', 'n', 'i', 't', 'y'] then
            some (Json.fnum ['I', 'n', 'f', 'i', 'n', 'i', 't', 'y'], l.drop 8)
          else if l.take 9 = ['-', 'I', 'n', 'f', 'i', 'n', 'i', 't', 'y'] then
            some (Json.fnum ['-', 'I', 'n', 'f', 'i', 'n', 'i', 't', 'y'], l.drop 9)
          else none

/-- Items of a non-empty array: value, then `,` and more items or `]`. -/
def parseItems : Nat → List Char → Option (JArr × List Char)
  | 0, _ => none
  | f + 1, l =>
    match parseVal f l with
    | none => none
    | some (v, r) =>
      match skipWs r with
      | ',' :: r2 => (parseItems f (skipWs r2)).map (fun p => (JArr.cons v p.1, p.2))
      | ']' :: r2 => some (JArr.cons v .nil, r2)
      | _ => none

/-- Members of a non-empty object: `"key"`, `:`, value, then `,` and
more members or the closing brace; returned as the raw pair list in
source order. -/
def parseMembers : Nat → List Char → Option (List (List Nat × Json) × List Char)
  | 0, _ => none
  | f + 1, l =>
    match l with
    | '"' :: cs =>
      match parseStringBody (cs.length + 1) cs with
      | none => none
      | some (k, r1) =>
        match skipWs r1 with
        | ':' :: r2 =>
          match parseVal f (skipWs r2) with
          | none => none
          | some (v, r3) =>
            match skipWs r3 with
            | ',' :: r4 => (parseMembers f (skipWs r4)).map (fun p => ((k, v) :: p.1, p.2))
            | '\x7d' :: r4 => some ([(k, v)], r4)
            | _ => none
        | _ => none
    | _ => none

end

/-- `json.loads` on text: skip whitespace, scan one value, skip
whitespace, and require the end of the input (`Extra data` otherwise).
The fuel `2 * length + 2` is always sufficient: parser layers alternate
with value layers and every value consumes at least one character. -/
def loadsChars (l : List Char) : Option Json :=
  match parseVal (2 * l.length + 2) (skipWs l) with
  | some (v, r) => if skipWs r = [] then some v else none
  | none => none

/-- `json.loads` on a string. -/
def loads (s : String) : Option Json := loadsChars s.data

/-! ## Base64: `base64.b64decode` with `validate=False` -/

/-- Value of a character of the standard base64 alphabet. -/
def b64val (c : Char) : Option Nat :=
  if 'A' ≤ c ∧ c ≤ 'Z' then some (c.toNat - 65)
  else if 'a' ≤ c ∧ c ≤ 'z' then some (c.toNat - 97 + 26)
  else if '0' ≤ c ∧ c ≤ '9' then some (c.toNat - 48 + 52)
  else if c = '+' then some 62
  else if c = '/' then some 63
  else none

/-- Character of a 6-bit group in the standard base64 alphabet. -/
def b64chr (n : Nat) : Char :=
  if n < 26 then Char.ofNat (65 + n)
  else if n < 52 then Char.ofNat (97 + n - 26)
  else if n < 62 then Char.ofNat (48 + n - 52)
  else if n = 62 then '+'
  else '/'

/-- The quad machine of `binascii.a2b_base64` in non-strict mode:
characters outside the alphabet are discarded; a `=` at quad position 0
or 1 is ignored; once at least two data characters of the current quad
are present, enough `=` padding finishes the decode and the remainder of
the input is ignored; at the end of input a partial quad is an error
(one leftover data character, or missing padding). -/
def a2b : List Char → Nat → Nat → Nat → List Nat → Option (List Nat)
  | [], qp, _, _, acc => if qp = 0 then some acc.reverse else none
  | c :: cs, qp, left, pads, acc =>
    if c = '=' then
      if 2 ≤ qp then
        if 4 ≤ qp + (pads + 1) then some acc.reverse
        else a2b cs qp left (pads + 1) acc
      else a2b cs qp left pads acc
    else
      match b64val c with
      | none => a2b cs qp left pads acc
      | some v =>
        match qp with
        | 0 => a2b cs 1 v 0 acc
        | 1 => a2b cs 2 (v % 16) 0 ((left * 4 + v / 16) :: acc)
        | 2 => a2b cs 3 (v % 4) 0 ((left * 16 + v / 4) :: acc)
        | _ => a2b cs 0 0 0 ((left * 64 + v) :: acc)

/-- `b64decode(s)` for a `str` argument: the string is first ASCII
encoded (any code point of `0x80` or above raises), then fed to the
non-strict quad machine. -/
def b64decodeStr (s : String) : Option (List Nat) :=
  if s.data.all (fun c => c.toNat < 0x80) then a2b s.data 0 0 0 [] else none

/-- Standard base64 encoding of a byte sequence (`base64.b64encode`):
quads of alphabet characters, the final group padded with `=`. -/
def b64encodeBytes : List Nat → List Char
  | [] => []
  | [b1] => [b64chr (b1 / 4), b64chr (b1 % 4 * 16), '=', '=']
  | [b1, b2] => [b64chr (b1 / 4), b64chr (b1 % 4 * 16 + b2 / 16), b64chr (b2 % 16 * 4), '=']
  | b1 :: b2 :: b3 :: rest =>
    b64chr (b1 / 4) :: b64chr (b1 % 4 * 16 + b2 / 16) :: b64chr (b2 % 16 * 4 + b3 / 64) ::
      b64chr (b3 % 64) :: b64encodeBytes rest

/-- Standard base64 encoding as a string. -/
def b64encodeStr (bs : List Nat) : String := String.mk (b64encodeBytes bs)

/-- Validity of a string as standard (RFC 4648) base64, following the
spec's words: complete groups of four alphabet characters, the last
group optionally carrying one or two `=` padding characters.  (The
program itself never computes this; `b64decode` in non-strict mode
accepts more.) -/
def isStrictBase64Chars : List Char → Bool
  | [] => true
  | [a, b, '=', '='] => (b64val a).isSome && (b64val b).isSome
  | [a, b, c, '='] => (b64val a).isSome && (b64val b).isSome && (b64val c).isSome
  | a :: b :: c :: d :: rest =>
    (b64val a).isSome && (b64val b).isSome && (b64val c).isSome && (b64val d).isSome &&
      isStrictBase64Chars rest
  | _ => false

/-- Validity of a string as standard base64. -/
def isStrictBase64 (s : String) : Bool := isStrictBase64Chars s.data

/-! ## UTF-8 and `json.detect_encoding` -/

/-- UTF-8 bytes of one code point (always a valid scalar value here,
since the argument is a Lean `Char`). -/
def utf8Char (c : Char) : List Nat :=
  if c.toNat < 0x80 then [c.toNat]
  else if c.toNat < 0x800 then [0xC0 + c.toNat / 64, 0x80 + c.toNat % 64]
  else if c.toNat < 0x10000 then
    [0xE0 + c.toNat / 4096, 0x80 + c.toNat / 64 % 64, 0x80 + c.toNat % 64]
  else
    [0xF0 + c.toNat / 0x40000, 0x80 + c.toNat / 4096 % 64, 0x80 + c.toNat / 64 % 64,
      0x80 + c.toNat % 64]

/-- UTF-8 encoding of a character list. -/
def utf8Chars (l : List Char) : List Nat :=
  l.foldr (fun c acc => utf8Char c ++ acc) []

/-- UTF-8 encoding of a string (`str.encode("utf-8")`). -/
def utf8Encode (s : String) : List Nat := utf8Chars s.data

/-- One code point of strict UTF-8 decoding (`bytes.decode("utf-8")`):
rejects invalid lead bytes, truncated or malformed continuation bytes,
overlong forms, surrogate code points and values above `0x10FFFF`,
exactly as CPython's strict codec does. -/
def utf8Step : List Nat → Option (Nat × List Nat)
  | [] => none
  | b :: bs =>
    if b < 0x80 then some (b, bs)
    else if b < 0xC2 then none
    else if b < 0xE0 then
      match bs with
      | b1 :: bs2 =>
        if 0x80 ≤ b1 ∧ b1 < 0xC0 then some ((b - 0xC0) * 64 + (b1 - 0x80), bs2) else none
      | [] => none
    else if b < 0xF0 then
      match bs with
      | b1 :: b2 :: bs3 =>
        if (if b = 0xE0 then 0xA0 else 0x80) ≤ b1 ∧ b1 ≤ (if b = 0xED then 0x9F else 0xBF) ∧
            0x80 ≤ b2 ∧ b2 < 0xC0 then
          some ((b - 0xE0) * 4096 + (b1 - 0x80) * 64 + (b2 - 0x80), bs3)
        else none
      | _ => none
    else if b < 0xF5 then
      match bs with
      | b1 :: b2 :: b3 :: bs4 =>
        if (if b = 0xF0 then 0x90 else 0x80) ≤ b1 ∧ b1 ≤ (if b = 0xF4 then 0x8F else 0xBF) ∧
            0x80 ≤ b2 ∧ b2 < 0xC0 ∧ 0x80 ≤ b3 ∧ b3 < 0xC0 then
          some ((b - 0xF0) * 0x40000 + (b1 - 0x80) * 4096 + (b2 - 0x80) * 64 + (b3 - 0x80), bs4)
        else none
      | _ => none
    else none

/-- Fuelled strict UTF-8 decoding loop; each step consumes at least one
byte, so fuel at least the input length always suffices. -/
def utf8DecodeChars : Nat → List Nat → Option (List Char)
  | _, [] => some []
  | 0, _ :: _ => none
  | f + 1, b :: bs =>
    match utf8Step (b :: bs) with
    | none => none
    | some (cp, rest) => (utf8DecodeChars f rest).map (fun l => Char.ofNat cp :: l)

/-- Strict UTF-8 decoding to a string. -/
def utf8Decode (bs : List Nat) : Option String :=
  (utf8DecodeChars bs.length bs).map String.mk

/-- The encodings `json.detect_encoding` can report. -/
inductive Enc where
  | utf8 | utf8sig | utf16 | utf16be | utf16le | utf32 | utf32be | utf32le
  deriving DecidableEq

/-- `json.detect_encoding`: BOM tests first (UTF-32 before UTF-16, then
the UTF-8 BOM), then the null-byte patterns of the first bytes for
BOM-less UTF-16/32, otherwise UTF-8. -/
def detectEncoding (b : List Nat) : Enc :=
  if b.take 4 = [0x00, 0x00, 0xFE, 0xFF] ∨ b.take 4 = [0xFF, 0xFE, 0x00, 0x00] then .utf32
  else if b.take 2 = [0xFE, 0xFF] ∨ b.take 2 = [0xFF, 0xFE] then .utf16
  else if b.take 3 = [0xEF, 0xBB, 0xBF] then .utf8sig
  else
    match b with
    | b0 :: b1 :: b2 :: b3 :: _ =>
      if b0 = 0 then (if b1 ≠ 0 then .utf16be else .utf32be)
      else if b1 = 0 then (if b2 ≠ 0 ∨ b3 ≠ 0 then .utf16le else .utf32le)
      else .utf8
    | [b0, b1] =>
      if b0 = 0 then .utf16be else if b1 = 0 then .utf16le else .utf8
    | _ => .utf8

/-! ## UTF-8 decoding with the `surrogatepass` error handler

`json.loads` decodes byte input with `s.decode(detect_encoding(s),
'surrogatepass')`.  The `surrogatepass` handler accepts, on top of strict
UTF-8, exactly the three-byte sequences `ED A0 80` – `ED BF BF` encoding
the surrogate code points `U+D800` – `U+DFFF` (the handler fires at a
strict error position, requires `(p0 & 0xF0) == 0xE0` with two
continuation bytes, and re-raises unless the decoded value is a
surrogate, which forces `p0 = 0xED`); every other strict error remains
an error.  The decoded text can therefore contain lone surrogates, which
a Lean `Char` cannot hold, so the decoder below yields code points and
the scanner is stated on code-point lists. -/

/-- One code point of UTF-8 decoding with `errors='surrogatepass'`:
identical to the strict `utf8Step` except that after the lead byte
`0xED` the first continuation byte may run up to `0xBF`, producing the
surrogate code points. -/
def utf8SurStep : List Nat → Option (Nat × List Nat)
  | [] => none
  | b :: bs =>
    if b < 0x80 then some (b, bs)
    else if b < 0xC2 then none
    else if b < 0xE0 then
      match bs with
      | b1 :: bs2 =>
        if 0x80 ≤ b1 ∧ b1 < 0xC0 then some ((b - 0xC0) * 64 + (b1 - 0x80), bs2) else none
      | [] => none
    else if b < 0xF0 then
      match bs with
      | b1 :: b2 :: bs3 =>
        if (if b = 0xE0 then 0xA0 else 0x80) ≤ b1 ∧ b1 ≤ 0xBF ∧
            0x80 ≤ b2 ∧ b2 < 0xC0 then
          some ((b - 0xE0) * 4096 + (b1 - 0x80) * 64 + (b2 - 0x80), bs3)
        else none
      | _ => none
    else if b < 0xF5 then
      match bs with
      | b1 :: b2 :: b3 :: bs4 =>
        if (if b = 0xF0 then 0x90 else 0x80) ≤ b1 ∧ b1 ≤ (if b = 0xF4 then 0x8F else 0xBF) ∧
            0x80 ≤ b2 ∧ b2 < 0xC0 ∧ 0x80 ≤ b3 ∧ b3 < 0xC0 then
          some ((b - 0xF0) * 0x40000 + (b1 - 0x80) * 4096 + (b2 - 0x80) * 64 + (b3 - 0x80), bs4)
        else none
      | _ => none
    else none

/-- Fuelled `surrogatepass` decoding loop, to code points. -/
def utf8SurDecodeCps : Nat → List Nat → Option (List Nat)
  | _, [] => some []
  | 0, _ :: _ => none
  | f + 1, b :: bs =>
    match utf8SurStep (b :: bs) with
    | none => none
    | some (cp, rest) => (utf8SurDecodeCps f rest).map (fun l => cp :: l)

/-- UTF-8 decoding with `errors='surrogatepass'`, as a code-point list. -/
def utf8SurDecode (bs : List Nat) : Option (List Nat) := utf8SurDecodeCps bs.length bs

/-! ## The scanner on code-point lists

The text `json.loads` parses after byte decoding is a Python `str`: a
sequence of code points that may include lone surrogates.  The scanner
below is the same translation of the `json` C scanner as the
`List Char` one above, stated on code points (`Nat`), which is what the
program actually runs on byte input; the `List Char` scanner is its
restriction to surrogate-free text and is the one used inside claim
statements about parsing printed output. -/

/-- Whitespace test on a code point. -/
def isWsC (c : Nat) : Bool :=
  c = 32 || c = 9 || c = 10 || c = 13

/-- Decimal digit test on a code point. -/
def isDigC (c : Nat) : Bool :=
  48 ≤ c && c ≤ 57

/-- Nonzero decimal digit test on a code point. -/
def isDig19C (c : Nat) : Bool :=
  49 ≤ c && c ≤ 57

/-- Value of one strict hexadecimal digit code point. -/
def hexValC (c : Nat) : Option Nat :=
  if 48 ≤ c ∧ c ≤ 57 then some (c - 48)
  else if 97 ≤ c ∧ c ≤ 102 then some (c - 87)
  else if 65 ≤ c ∧ c ≤ 70 then some (c - 55)
  else none

/-- Numeric value of a decimal digit code-point string. -/
def digitsValC (l : List Nat) : Nat :=
  l.foldl (fun a c => a * 10 + (c - 48)) 0

/-- Whitespace skipping on code points. -/
def skipWsC : List Nat → List Nat
  | c :: cs => if isWsC c then skipWsC cs else c :: cs
  | [] => []

/-- Strict parse of exactly four hexadecimal digit code points. -/
def parseHex4C : List Nat → Option Nat
  | a :: b :: c :: d :: _ =>
    match hexValC a, hexValC b, hexValC c, hexValC d with
    | some va, some vb, some vc, some vd => some (((va * 16 + vb) * 16 + vc) * 16 + vd)
    | _, _, _, _ => none
  | _ => none

/-- Code point of a two-character escape, on code points. -/
def escShortC (c : Nat) : Option Nat :=
  if c = 34 then some 34
  else if c = 92 then some 92
  else if c = 47 then some 47
  else if c = 98 then some 8
  else if c = 102 then some 12
  else if c = 110 then some 10
  else if c = 114 then some 13
  else if c = 116 then some 9
  else none

/-- `scanstring` on code points (strict mode): as `parseStringBody`,
with raw code points — lone surrogates included — passed through
unchanged; only escaped high–low surrogate pairs combine. -/
def parseStringBodyC : Nat → List Nat → Option (List Nat × List Nat)
  | 0, _ => none
  | _ + 1, [] => none
  | f + 1, c :: cs =>
    if c = 34 then some ([], cs)
    else if c = 92 then
      match cs with
      | [] => none
      | e :: cs2 =>
        if e = 117 then
          match parseHex4C cs2 with
          | none => none
          | some u =>
            let cs3 := cs2.drop 4
            if 0xD800 ≤ u ∧ u ≤ 0xDBFF then
              if cs3.take 2 = [92, 117] then
                match parseHex4C (cs3.drop 2) with
                | none => none
                | some u2 =>
                  if 0xDC00 ≤ u2 ∧ u2 ≤ 0xDFFF then
                    (parseStringBodyC f (cs3.drop 6)).map
                      (fun p => ((0x10000 + (u - 0xD800) * 0x400 + (u2 - 0xDC00)) :: p.1, p.2))
                  else
                    (parseStringBodyC f cs3).map (fun p => (u :: p.1, p.2))
              else (parseStringBodyC f cs3).map (fun p => (u :: p.1, p.2))
            else (parseStringBodyC f cs3).map (fun p => (u :: p.1, p.2))
        else
          match escShortC e with
          | some cp => (parseStringBodyC f cs2).map (fun p => (cp :: p.1, p.2))
          | none => none
    else if c < 0x20 then none
    else (parseStringBodyC f cs).map (fun p => (c :: p.1, p.2))

/-- Longest decimal digit run, on code points. -/
def spanDigitsC : List Nat → List Nat × List Nat
  | [] => ([], [])
  | c :: cs =>
    if isDigC c then
      let p := spanDigitsC cs
      (c :: p.1, p.2)
    else ([], c :: cs)

/-- Optional fraction part, on code points. -/
def numFracC : List Nat → List Nat × List Nat
  | 46 :: c :: cs =>
    if isDigC c then
      let p := spanDigitsC cs
      (46 :: c :: p.1, p.2)
    else ([], 46 :: c :: cs)
  | l => ([], l)

/-- Optional exponent part, on code points. -/
def numExpC (l : List Nat) : List Nat × List Nat :=
  match l with
  | e :: rest =>
    if e = 101 ∨ e = 69 then
      match rest with
      | s :: rest2 =>
        if s = 43 ∨ s = 45 then
          match spanDigitsC rest2 with
          | ([], _) => ([], l)
          | (ds, r) => (e :: s :: ds, r)
        else
          match spanDigitsC rest with
          | ([], _) => ([], l)
          | (ds, r) => (e :: ds, r)
      | [] => ([], l)
    else ([], l)
  | [] => ([], l)

/-- Number match on code points; float lexemes are carried as the
corresponding (ASCII) character list. -/
def parseNumberC (l : List Nat) : Option (Json × List Nat) :=
  let neg := match l with
    | c :: _ => c == 45
    | [] => false
  let l1 := if neg then l.tail else l
  match l1 with
  | c :: cs =>
    if c = 48 ∨ isDig19C c then
      let intDs : List Nat × List Nat :=
        if c = 48 then ([48], cs)
        else
          let p := spanDigitsC cs
          (c :: p.1, p.2)
      let fr := numFracC intDs.2
      let ex := numExpC fr.2
      if fr.1 = [] ∧ ex.1 = [] then
        let n : Int := Int.ofNat (digitsValC intDs.1)
        some (Json.num (if neg then -n else n), intDs.2)
      else
        some (Json.fnum (((if neg then [45] else []) ++ intDs.1 ++ fr.1 ++ ex.1).map
          (fun d => Char.ofNat d)), ex.2)
    else none
  | [] => none

mutual

/-- One JSON value at the head of a code-point input, as `parseVal`. -/
def parseValC : Nat → List Nat → Option (Json × List Nat)
  | 0, _ => none
  | f + 1, l =>
    match l with
    | [] => none
    | c :: cs =>
      if c = 34 then
        (parseStringBodyC (cs.length + 1) cs).map (fun p => (Json.str p.1, p.2))
      else if c = 123 then
        match skipWsC cs with
        | 125 :: r => some (Json.obj .nil, r)
        | l1 => (parseMembersC f l1).map (fun p => (Json.obj (objOf p.1), p.2))
      else if c = 91 then
        match skipWsC cs with
        | 93 :: r => some (Json.arr .nil, r)
        | l1 => (parseItemsC f l1).map (fun p => (Json.arr p.1, p.2))
      else if l.take 4 = [110, 117, 108, 108] then some (Json.null, l.drop 4)
      else if l.take 4 = [116, 114, 117, 101] then some (Json.bool true, l.drop 4)
      else if l.take 5 = [102, 97, 108, 115, 101] then some (Json.bool false, l.drop 5)
      else
        match parseNumberC l with
        | some r => some r
        | none =>
          if l.take 3 = [78, 97, 78] then some (Json.fnum ['N', 'a', 'N'], l.drop 3)
          else if l.take 8 = [73, 110, 102, 105, 110, 105, 116, 121] then
            some (Json.fnum ['I', 'n', 'f', 'i', 'n', 'i', 't', 'y'], l.drop 8)
          else if l.take 9 = [45, 73, 110, 102, 105, 110, 105, 116, 121] then
            some (Json.fnum ['-', 'I', 'n', 'f', 'i', 'n', 'i', 't', 'y'], l.drop 9)
          else none

/-- Items of a non-empty array, on code points. -/
def parseItemsC : Nat → List Nat → Option (JArr × List Nat)
  | 0, _ => none
  | f + 1, l =>
    match parseValC f l with
    | none => none
    | some (v, r) =>
      match skipWsC r with
      | 44 :: r2 => (parseItemsC f (skipWsC r2)).map (fun p => (JArr.cons v p.1, p.2))
      | 93 :: r2 => some (JArr.cons v .nil, r2)
      | _ => none

/-- Members of a non-empty object, on code points. -/
def parseMembersC : Nat → List Nat → Option (List (List Nat × Json) × List Nat)
  | 0, _ => none
  | f + 1, l =>
    match l with
    | 34 :: cs =>
      match parseStringBodyC (cs.length + 1) cs with
      | none => none
      | some (k, r1) =>
        match skipWsC r1 with
        | 58 :: r2 =>
          match parseValC f (skipWsC r2) with
          | none => none
          | some (v, r3) =>
            match skipWsC r3 with
            | 44 :: r4 => (parseMembersC f (skipWsC r4)).map (fun p => ((k, v) :: p.1, p.2))
            | 125 :: r4 => some ([(k, v)], r4)
            | _ => none
        | _ => none
    | _ => none

end

/-- `json.loads` on a code-point text: skip whitespace, scan one value,
and require the end of the input. -/
def loadsCps (l : List Nat) : Option Json :=
  match parseValC (2 * l.length + 2) (skipWsC l) with
  | some (v, r) => if skipWsC r = [] then some v else none
  | none => none

/-- `json.loads` on bytes: decode according to the detected encoding
with the `surrogatepass` error handler, then parse the resulting code
points.  `utf-8-sig` strips the 3-byte BOM first.  The UTF-16/32
branches are not modelled (their decoding is endianness- and
platform-sensitive) and are mapped to `none`; every theorem about
successfully parsed content therefore carries a hypothesis placing it
on the UTF-8 branches. -/
def loadsBytes (bs : List Nat) : Option Json :=
  match detectEncoding bs with
  | .utf8 => (utf8SurDecode bs).bind loadsCps
  | .utf8sig => (utf8SurDecode (bs.drop 3)).bind loadsCps
  | _ => none

/-! ## Paths and the program -/

/-- `Path.home()` on POSIX: `os.path.expanduser("~")` reads the `HOME`
environment variable and falls back to the password database entry
(`pwHome`) when it is unset.  (On Windows the variable consulted is
`USERPROFILE`; either way a process environment variable determines the
result.) -/
def homeDir (env : String → Option String) (pwHome : String) : String :=
  (env "HOME").getD pwHome

/-- The path the script constructs:
`Path.home().joinpath("AppData", "Local", "tupy", f"spotify.{ident}.token")`.
All joined components are relative, so `joinpath` is concatenation with
`/` separators, the identifier inserted verbatim into the filename. -/
def tokenPath (home ident : String) : String :=
  home ++ "/AppData/Local/tupy/spotify." ++ ident ++ ".token"

/-- Split a character list at `/` separators. -/
def splitSlash (cur : List Char) : List Char → List (List Char)
  | [] => [cur.reverse]
  | c :: cs => if c = '/' then cur.reverse :: splitSlash [] cs else splitSlash (c :: cur) cs

/-- Fold of path components as the operating system resolves them for an
absolute path: empty and `.` components vanish, `..` removes the
previous component (at the root it is a no-op). -/
def resolveComps (stack : List (List Char)) : List (List Char) → List (List Char)
  | [] => stack
  | c :: cs =>
    if c = [] ∨ c = ['.'] then resolveComps stack cs
    else if c = ['.', '.'] then resolveComps stack.dropLast cs
    else resolveComps (stack ++ [c]) cs

/-- Join resolved components back into an absolute path. -/
def joinComps : List (List Char) → List Char
  | [] => []
  | c :: cs => '/' :: c ++ joinComps cs

/-- Resolution of an absolute path string to its canonical form, the
form under which the file system is addressed in this model. -/
def resolvePath (p : String) : String :=
  String.mk (joinComps (resolveComps [] (splitSlash [] p.data)))

/-- Observable side effects of one run. `statPath` is the existence
check `path.exists()`, `readFile` the `open`/`read`, `writeStdout` the
`print`.  The mutating effects (`writeFile`, `createFile`, `deleteFile`)
exist in the vocabulary so that their absence from every trace is a
statement about the program rather than about the type. -/
inductive Effect where
  | statPath : String → Effect
  | readFile : String → Effect
  | writeStdout : String → Effect
  | writeFile : String → String → Effect
  | createFile : String → String → Effect
  | deleteFile : String → Effect
  deriving DecidableEq

/-- The whole script, as exit outcome plus effect trace.  `env` is the
process environment, `pwHome` the password-database home directory,
`argv` the full argument vector (`argv[0]` is the program name), `fs`
the file system as a map from resolved paths to text contents (`none`
is absent or unreadable).  The result's first component is `some stdout`
for a normal exit (status 0) and `none` for termination by an unhandled
exception (nonzero status, nothing on stdout). -/
def runT (env : String → Option String) (pwHome : String) (argv : List String)
    (fs : String → Option String) : Option String × List Effect :=
  match argv with
  | _ :: ident :: _ =>
    let p := tokenPath (homeDir env pwHome) ident
    match fs (resolvePath p) with
    | none => (some "", [Effect.statPath p])
    | some content =>
      match b64decodeStr content with
      | none => (none, [Effect.statPath p, Effect.readFile p])
      | some bs =>
        match loadsBytes bs with
        | none => (none, [Effect.statPath p, Effect.readFile p])
        | some v =>
          (some (dumps v ++ "\n"),
            [Effect.statPath p, Effect.readFile p, Effect.writeStdout (dumps v ++ "\n")])
  | _ => (none, [])

/-- Exit outcome and stdout of one run. -/
def run (env : String → Option String) (pwHome : String) (argv : List String)
    (fs : String → Option String) : Option String :=
  (runT env pwHome argv fs).1

/-- Number of file reads in a trace. -/
def countReads (tr : List Effect) : Nat :=
  tr.countP (fun e => match e with | .readFile _ => true | _ => false)

/-- Number of writes to standard output in a trace. -/
def countWrites (tr : List Effect) : Nat :=
  tr.countP (fun e => match e with | .writeStdout _ => true | _ => false)

/-- Whether an effect mutates the file system. -/
def isMutation : Effect → Bool
  | .writeFile _ _ => true
  | .createFile _ _ => true
  | .deleteFile _ => true
  | _ => false

/-- Replay of a trace's file-system mutations over a file system. -/
def applyTrace (tr : List Effect) (fs : String → Option String) : String → Option String :=
  match tr with
  | [] => fs
  | .writeFile p c :: rest => applyTrace rest (fun q => if q = p then some c else fs q)
  | .createFile p c :: rest => applyTrace rest (fun q => if q = p then some c else fs q)
  | .deleteFile p :: rest => applyTrace rest (fun q => if q = p then none else fs q)
  | _ :: rest => applyTrace rest fs

/-- Whether every path-referencing effect of a trace references the
path `p`. -/
def touchesOnly (tr : List Effect) (p : String) : Bool :=
  tr.all fun e =>
    match e with
    | .statPath q => q = p
    | .readFile q => q = p
    | .writeFile q _ => q = p
    | .createFile q _ => q = p
    | .deleteFile q => q = p
    | .writeStdout _ => true

/-! ## Structural predicates on JSON values -/

mutual

/-- No `float` anywhere in the value: the scope on which the
serialization model is exact. -/
def floatFree : Json → Bool
  | .null => true
  | .bool _ => true
  | .num _ => true
  | .fnum _ => false
  | .str _ => true
  | .arr xs => floatFreeA xs
  | .obj ps => floatFreeO ps

def floatFreeA : JArr → Bool
  | .nil => true
  | .cons x xs => floatFree x && floatFreeA xs

def floatFreeO : JObj → Bool
  | .nil => true
  | .cons _ v ps => floatFree v && floatFreeO ps

end

/-- High surrogate code point. -/
def isHiSur (cp : Nat) : Bool := 0xD800 ≤ cp && cp ≤ 0xDBFF

/-- Low surrogate code point. -/
def isLoSur (cp : Nat) : Bool := 0xDC00 ≤ cp && cp ≤ 0xDFFF

/-- No high surrogate immediately followed by a low surrogate (the
scanner always combines such a pair, so parsed strings satisfy this). -/
def noHiLo : List Nat → Bool
  | a :: b :: t => !(isHiSur a && isLoSur b) && noHiLo (b :: t)
  | _ => true

/-- A string value the scanner can produce: code points below
`0x110000` and no adjacent high–low surrogate pair. -/
def strOk (s : List Nat) : Bool := s.all (fun cp => cp < 0x110000) && noHiLo s

/-- Key membership in an object. -/
def hasKey : JObj → List Nat → Bool
  | .nil, _ => false
  | .cons k' _ ps, k => k' = k || hasKey ps k

/-- Pairwise distinct keys (always true of parsed objects, by `dict`
semantics). -/
def nodupKeys : JObj → Bool
  | .nil => true
  | .cons k _ ps => !hasKey ps k && nodupKeys ps

mutual

/-- Values in the image of the scanner: well-formed strings everywhere
and duplicate-free keys in every object. -/
def wfJ : Json → Bool
  | .null => true
  | .bool _ => true
  | .num _ => true
  | .fnum _ => true
  | .str s => strOk s
  | .arr xs => wfA xs
  | .obj ps => wfO ps && nodupKeys ps

def wfA : JArr → Bool
  | .nil => true
  | .cons x xs => wfJ x && wfA xs

def wfO : JObj → Bool
  | .nil => true
  | .cons k v ps => strOk k && wfJ v && wfO ps

end

/-- Characters that may legitimately follow a complete number token in
`dumps` output (anything that does not extend the token). -/
def numStop : List Char → Bool
  | [] => true
  | c :: _ => !(isDig c || c = '.' || c = 'e' || c = 'E')

/-- Failure of the surrogate-pair combination test at the input `l`:
either the next two characters are not `\u`, or they are but the four
hex digits after them denote something other than a low surrogate. -/
def notLoEsc (l : List Char) : Prop :=
  l.take 2 ≠ ['\\', 'u'] ∨ ∃ u2, parseHex4 (l.drop 2) = some u2 ∧ isLoSur u2 = false

/-- The member list of an object, in order. -/
def pairsOf : JObj → List (List Nat × Json)
  | .nil => []
  | .cons k v ps => (k, v) :: pairsOf ps

/-- Concatenation of member lists. -/
def jappend : JObj → JObj → JObj
  | .nil, b => b
  | .cons k v ps, b => .cons k v (jappend ps b)

/-! ## Claim theorems: paths, arguments, effects -/

/-- C4: for every identifier given as the first command-line argument,
the path the program addresses (and the only path any of its effects
reference) is exactly the join of the user's home directory, the fixed
subdirectory `AppData/Local/tupy`, and the filename
`spotify.<identifier>.token` with the identifier inserted verbatim. -/
theorem path_is_verbatim_join (env : String → Option String) (pwHome a0 ident : String)
    (args : List String) (fs : String → Option String) :
    tokenPath (homeDir env pwHome) ident
        = homeDir env pwHome ++ "/AppData/Local/tupy/" ++ ("spotify." ++ ident ++ ".token")
      ∧ touchesOnly (runT env pwHome (a0 :: ident :: args) fs).2
          (tokenPath (homeDir env pwHome) ident) = true := by
  constructor
  · apply String.ext
    simp [tokenPath, String.data_append]
  · rcases hfs : fs (resolvePath (tokenPath (homeDir env pwHome) ident)) with _ | content
    · simp [runT, hfs, touchesOnly]
    · rcases hb : b64decodeStr content with _ | bs
      · simp [runT, hfs, hb, touchesOnly]
      · rcases hl : loadsBytes bs with _ | v
        · simp [runT, hfs, hb, hl, touchesOnly]
        · simp [runT, hfs, hb, hl, touchesOnly]

/-- C2: when the constructed token-file path does not exist, the run
performs an existence check only (no file read), writes nothing to
standard output, and exits normally with status zero. -/
theorem missing_file_is_silent_success (env : String → Option String)
    (pwHome a0 ident : String) (args : List String) (fs : String → Option String)
    (h : fs (resolvePath (tokenPath (homeDir env pwHome) ident)) = none) :
    runT env pwHome (a0 :: ident :: args) fs
      = (some "", [Effect.statPath (tokenPath (homeDir env pwHome) ident)]) := by
  simp [runT, h]

/-- Witness: the spec's concrete scenario, identifier `foo` with an
empty file system. -/
theorem missing_file_is_silent_success_witness :
    runT (fun _ => none) "/pw" ["prog", "foo"] (fun _ => none)
      = (some "", [Effect.statPath "/pw/AppData/Local/tupy/spotify.foo.token"]) :=
  missing_file_is_silent_success (fun _ => none) "/pw" "prog" "foo" [] (fun _ => none) rfl

/-- C7: with zero command-line arguments, `argv[1]` raises before any
path is built, so the run is fatal with an empty effect trace (no file
access, nothing on standard output), for every environment and file
system. -/
theorem no_argument_is_fatal_before_io (env : String → Option String) (pwHome a0 : String)
    (fs : String → Option String) :
    runT env pwHome [a0] fs = (none, []) := rfl

/-- C9: the only effects of any run are at most one file read and at
most one write to standard output; no effect mutates the file system,
and replaying the trace over the file system leaves it unchanged. -/
theorem effects_read_write_only (env : String → Option String) (pwHome : String)
    (argv : List String) (fs : String → Option String) :
    countReads (runT env pwHome argv fs).2 ≤ 1
      ∧ countWrites (runT env pwHome argv fs).2 ≤ 1
      ∧ (runT env pwHome argv fs).2.all (fun e => !isMutation e) = true
      ∧ applyTrace (runT env pwHome argv fs).2 fs = fs := by
  rcases argv with _ | ⟨a0, argv⟩
  · simp [runT, countReads, countWrites, applyTrace]
  rcases argv with _ | ⟨ident, args⟩
  · simp [runT, countReads, countWrites, applyTrace]
  rcases hfs : fs (resolvePath (tokenPath (homeDir env pwHome) ident)) with _ | content
  · simp [runT, hfs, countReads, countWrites, applyTrace, isMutation]
  rcases hb : b64decodeStr content with _ | bs
  · simp [runT, hfs, hb, countReads, countWrites, applyTrace, isMutation]
  rcases hl : loadsBytes bs with _ | v
  · simp [runT, hfs, hb, hl, countReads, countWrites, applyTrace, isMutation]
  · simp [runT, hfs, hb, hl, countReads, countWrites, applyTrace, isMutation]

/-- C8 counterexample: two runs with the same argument vector and the
same file system but different `HOME` environment variables produce
different output, because `Path.home()` reads the environment. -/
theorem env_changes_output :
    run (fun k => if k = "HOME" then some "/a" else none) "/pw" ["prog", "x"]
        (fun p => if p = "/a/AppData/Local/tupy/spotify.x.token" then some "bnVsbA==" else none)
      ≠ run (fun k => if k = "HOME" then some "/b" else none) "/pw" ["prog", "x"]
        (fun p => if p = "/a/AppData/Local/tupy/spotify.x.token" then some "bnVsbA==" else none) := by
  decide

/-- C8 amended: the program reads exactly one environment variable,
`HOME` (through `Path.home()`); two runs agreeing on the resolved home
directory, the argument vector and the file system behave identically,
output and exit status included. -/
theorem runs_agree_given_same_home (env env' : String → Option String) (pwHome pwHome' : String)
    (h : homeDir env pwHome = homeDir env' pwHome') (argv : List String)
    (fs : String → Option String) :
    runT env pwHome argv fs = runT env' pwHome' argv fs := by
  rcases argv with _ | ⟨a0, argv⟩
  · rfl
  rcases argv with _ | ⟨ident, args⟩
  · rfl
  simp only [runT, h]

/-- Witness: two environments with identical `HOME` produce the same
run. -/
theorem runs_agree_given_same_home_witness :
    runT (fun k => if k = "HOME" then some "/h" else none) "/p" ["prog", "x"] (fun _ => none)
      = runT (fun _ => some "/h") "/q" ["prog", "x"] (fun _ => none) :=
  runs_agree_given_same_home (fun k => if k = "HOME" then some "/h" else none)
    (fun _ => some "/h") "/p" "/q" (by decide) ["prog", "x"] (fun _ => none)

/-- C10: the identifier `/../../x` (containing a path separator and
parent-directory components) is inserted unsanitized, and the
constructed path resolves to `<home>/AppData/Local/x.token`, outside the
fixed `AppData/Local/tupy` directory; the program then reads that
outside file and prints its decoded content. -/
theorem traversal_identifier_reads_outside :
    ("/../../x".data.contains '/') = true
      ∧ resolvePath (tokenPath "/h" "/../../x") = "/h/AppData/Local/x.token"
      ∧ ("/h/AppData/Local/tupy/".data.isPrefixOf
          (resolvePath (tokenPath "/h" "/../../x")).data) = false
      ∧ run (fun k => if k = "HOME" then some "/h" else none) "/pw" ["prog", "/../../x"]
          (fun p => if p = "/h/AppData/Local/x.token" then some "bnVsbA==" else none)
        = some "null\n" := by
  decide

/-! ## Claim theorems: base64 and encoding failures -/

/-- C3 counterexample: the file content `bnVsbA==x` is not valid
standard base64, yet the decoding step succeeds (`=`-completed quads end
the decode and the remainder is discarded), and the program exits
normally printing valid JSON — refuting both conjuncts of the claim at
this input. -/
theorem invalid_base64_decoded_and_printed :
    isStrictBase64 "bnVsbA==x" = false
      ∧ b64decodeStr "bnVsbA==x" = some [110, 117, 108, 108]
      ∧ run (fun k => if k = "HOME" then some "/h" else none) "/pw" ["prog", "id"]
          (fun p => if p = "/h/AppData/Local/tupy/spotify.id.token" then some "bnVsbA==x"
            else none)
        = some "null\n" := by
  decide

/-- C3 amended: when the base64 decoding step does fail (non-ASCII
content, or a final quad left incomplete after discarding non-alphabet
characters), the program terminates fatally having read the file once
and written nothing to standard output.  Content that is not valid
standard base64 does not necessarily make decoding fail: non-alphabet
characters are discarded and data after complete padding is ignored. -/
theorem b64_failure_is_fatal_and_silent (env : String → Option String)
    (pwHome a0 ident : String) (args : List String) (fs : String → Option String)
    (content : String)
    (hfs : fs (resolvePath (tokenPath (homeDir env pwHome) ident)) = some content)
    (hb : b64decodeStr content = none) :
    runT env pwHome (a0 :: ident :: args) fs
      = (none, [Effect.statPath (tokenPath (homeDir env pwHome) ident),
          Effect.readFile (tokenPath (homeDir env pwHome) ident)]) := by
  simp [runT, hfs, hb]

/-- Witness: content `x` (a single data character) fails the quad
machine and the run is fatal. -/
theorem b64_failure_is_fatal_and_silent_witness :
    runT (fun _ => none) "/h" ["prog", "id"] (fun _ => some "x")
      = (none, [Effect.statPath "/h/AppData/Local/tupy/spotify.id.token",
          Effect.readFile "/h/AppData/Local/tupy/spotify.id.token"]) :=
  b64_failure_is_fatal_and_silent (fun _ => none) "/h" "prog" "id" [] (fun _ => some "x") "x"
    rfl rfl

/-- C6 counterexample: two valid-base64 contents whose decoded bytes are
not valid UTF-8 JSON text, yet the program succeeds.  `77u/bnVsbA==`
decodes to a UTF-8 BOM followed by `null`; read as UTF-8 JSON text it
parses to nothing, but `json.detect_encoding` maps the BOM to the
`utf-8-sig` codec, which strips it, and the program prints `null`.
`Iu2ggCI=` decodes to the bytes `22 ED A0 80 22`, detected as plain
UTF-8 but not valid UTF-8 at all (a lone-surrogate sequence); the
`surrogatepass` error handler decodes it to `"\ud800"` and the program
prints that string escaped.  Both runs exit normally. -/
theorem bom_or_surrogate_bytes_parse_and_print :
    (isStrictBase64 "77u/bnVsbA==" = true
      ∧ b64decodeStr "77u/bnVsbA==" = some [0xEF, 0xBB, 0xBF, 0x6E, 0x75, 0x6C, 0x6C]
      ∧ (utf8Decode [0xEF, 0xBB, 0xBF, 0x6E, 0x75, 0x6C, 0x6C]).bind loads = none
      ∧ run (fun k => if k = "HOME" then some "/h" else none) "/pw" ["prog", "id"]
          (fun p => if p = "/h/AppData/Local/tupy/spotify.id.token" then some "77u/bnVsbA=="
            else none)
        = some "null\n")
      ∧ (isStrictBase64 "Iu2ggCI=" = true
      ∧ b64decodeStr "Iu2ggCI=" = some [0x22, 0xED, 0xA0, 0x80, 0x22]
      ∧ detectEncoding [0x22, 0xED, 0xA0, 0x80, 0x22] = Enc.utf8
      ∧ utf8Decode [0x22, 0xED, 0xA0, 0x80, 0x22] = none
      ∧ run (fun k => if k = "HOME" then some "/h" else none) "/pw" ["prog", "id"]
          (fun p => if p = "/h/AppData/Local/tupy/spotify.id.token" then some "Iu2ggCI="
            else none)
        = some "\"\\ud800\"\n") := by
  decide

/-- C6 amended: when the decoded bytes are detected as plain UTF-8 (no
byte-order mark, no UTF-16/32 null-byte pattern) and do not decode with
the `surrogatepass` error handler and parse as JSON text, the program
terminates with a fatal unhandled error and prints nothing. -/
theorem invalid_utf8_json_is_fatal (env : String → Option String)
    (pwHome a0 ident : String) (args : List String) (fs : String → Option String)
    (content : String) (bs : List Nat)
    (hfs : fs (resolvePath (tokenPath (homeDir env pwHome) ident)) = some content)
    (hb : b64decodeStr content = some bs)
    (hdet : detectEncoding bs = Enc.utf8)
    (hparse : (utf8SurDecode bs).bind loadsCps = none) :
    runT env pwHome (a0 :: ident :: args) fs
      = (none, [Effect.statPath (tokenPath (homeDir env pwHome) ident),
          Effect.readFile (tokenPath (homeDir env pwHome) ident)]) := by
  simp [runT, hfs, hb, loadsBytes, hdet, hparse]

/-- Witness: content `/w==` decodes to the lone byte `0xFF`, invalid
UTF-8, and the run is fatal. -/
theorem invalid_utf8_json_is_fatal_witness :
    runT (fun _ => none) "/h" ["prog", "id"] (fun _ => some "/w==")
      = (none, [Effect.statPath "/h/AppData/Local/tupy/spotify.id.token",
          Effect.readFile "/h/AppData/Local/tupy/spotify.id.token"]) :=
  invalid_utf8_json_is_fatal (fun _ => none) "/h" "prog" "id" [] (fun _ => some "/w==")
    "/w==" [0xFF] rfl rfl rfl rfl

/-- Serialization of parsed content, for float-free values: whenever the
decoded token bytes parse as a float-free JSON value `v`, the program
writes exactly `dumps v` — the value serialized with 2-space
indentation — followed by a single newline; and on the concrete
scenario (base64 of `\x7b"a": 1, "b": [2, 3]\x7d`) the output is exactly
the six-line pretty-printed form plus the trailing newline.  Values
with float leaves are outside this lemma: `json.dumps` serializes them
through Python float `repr`, which the embedding does not model. -/
theorem prints_indent2_and_newline :
    (∀ (env : String → Option String) (pwHome a0 ident : String) (args : List String)
        (fs : String → Option String) (content : String) (bs : List Nat) (v : Json),
        fs (resolvePath (tokenPath (homeDir env pwHome) ident)) = some content →
        b64decodeStr content = some bs →
        loadsBytes bs = some v →
        floatFree v = true →
        run env pwHome (a0 :: ident :: args) fs = some (dumps v ++ "\n"))
      ∧ run (fun k => if k = "HOME" then some "/h" else none) "/pw" ["prog", "me"]
          (fun p => if p = "/h/AppData/Local/tupy/spotify.me.token" then
              some "eyJhIjogMSwgImIiOiBbMiwgM119" else none)
        = some "\x7b\n  \"a\": 1,\n  \"b\": [\n    2,\n    3\n  ]\n\x7d\n" := by
  constructor
  · intro env pwHome a0 ident args fs content bs v hfs hb hl _
    simp [run, runT, hfs, hb, hl]
  · decide

/-- Witness for the universal part: a token file holding base64 of
`null` prints `dumps Json.null` and a newline. -/
theorem prints_indent2_and_newline_witness :
    run (fun _ => none) "/h" ["prog", "id"] (fun _ => some "bnVsbA==")
      = some (dumps Json.null ++ "\n") :=
  prints_indent2_and_newline.1 (fun _ => none) "/h" "prog" "id" [] (fun _ => some "bnVsbA==")
    "bnVsbA==" [110, 117, 108, 108] Json.null rfl rfl rfl rfl

/-! ## Base64 encoder/decoder round trip -/

theorem b64chr_ne_pad {v : Nat} (h : v < 64) : ¬(b64chr v = '=') := by
  revert h; revert v; decide

theorem b64val_b64chr {v : Nat} (h : v < 64) : b64val (b64chr v) = some v := by
  revert h; revert v; decide

theorem b64chr_ascii {v : Nat} (h : v < 64) : (b64chr v).toNat < 0x80 := by
  revert h; revert v; decide

/-- The quad machine inverts the encoder, for any accumulator. -/
theorem a2b_b64encodeBytes (bs : List Nat) (hb : ∀ b ∈ bs, b < 256) :
    ∀ acc left pads, a2b (b64encodeBytes bs) 0 left pads acc = some (acc.reverse ++ bs) := by
  induction bs using b64encodeBytes.induct with
  | case1 =>
    intro acc left pads
    simp [b64encodeBytes, a2b]
  | case2 b1 =>
    intro acc left pads
    have h1 : b1 < 256 := hb b1 (by simp)
    have d1 : b1 / 4 < 64 := by omega
    have d2 : b1 % 4 * 16 < 64 := by omega
    have e1 : b1 / 4 * 4 + b1 % 4 * 16 / 16 = b1 := by omega
    simp [b64encodeBytes, a2b, b64chr_ne_pad d1, b64val_b64chr d1,
      b64chr_ne_pad d2, b64val_b64chr d2, e1]
    omega
  | case3 b1 b2 =>
    intro acc left pads
    have h1 : b1 < 256 := hb b1 (by simp)
    have h2 : b2 < 256 := hb b2 (by simp)
    have d1 : b1 / 4 < 64 := by omega
    have d2 : b1 % 4 * 16 + b2 / 16 < 64 := by omega
    have d3 : b2 % 16 * 4 < 64 := by omega
    have e1 : b1 / 4 * 4 + (b1 % 4 * 16 + b2 / 16) / 16 = b1 := by omega
    have e2 : (b1 % 4 * 16 + b2 / 16) % 16 * 16 + b2 % 16 * 4 / 4 = b2 := by omega
    simp [b64encodeBytes, a2b, b64chr_ne_pad d1, b64val_b64chr d1, b64chr_ne_pad d2,
      b64val_b64chr d2, b64chr_ne_pad d3, b64val_b64chr d3, e1, e2]
    omega
  | case4 b1 b2 b3 rest ih =>
    intro acc left pads
    have h1 : b1 < 256 := hb b1 (by simp)
    have h2 : b2 < 256 := hb b2 (by simp)
    have h3 : b3 < 256 := hb b3 (by simp)
    have d1 : b1 / 4 < 64 := by omega
    have d2 : b1 % 4 * 16 + b2 / 16 < 64 := by omega
    have d3 : b2 % 16 * 4 + b3 / 64 < 64 := by omega
    have d4 : b3 % 64 < 64 := by omega
    have e1 : b1 / 4 * 4 + (b1 % 4 * 16 + b2 / 16) / 16 = b1 := by omega
    have e2 : (b1 % 4 * 16 + b2 / 16) % 16 * 16 + (b2 % 16 * 4 + b3 / 64) / 4 = b2 := by omega
    have e3 : (b2 % 16 * 4 + b3 / 64) % 4 * 64 + b3 % 64 = b3 := by omega
    have ih' := ih (fun b hm => hb b (by simp [hm]))
    simp [b64encodeBytes, a2b, b64chr_ne_pad d1, b64val_b64chr d1, b64chr_ne_pad d2,
      b64val_b64chr d2, b64chr_ne_pad d3, b64val_b64chr d3, b64chr_ne_pad d4,
      b64val_b64chr d4, e1, e2, e3, ih']

theorem b64encodeBytes_ascii (bs : List Nat) (hb : ∀ b ∈ bs, b < 256) :
    ∀ c ∈ b64encodeBytes bs, c.toNat < 0x80 := by
  induction bs using b64encodeBytes.induct with
  | case1 => simp [b64encodeBytes]
  | case2 b1 =>
    have h1 : b1 < 256 := hb b1 (by simp)
    intro c hc
    fin_cases hc
    all_goals first
      | exact b64chr_ascii (by omega)
      | decide
  | case3 b1 b2 =>
    have h1 : b1 < 256 := hb b1 (by simp)
    have h2 : b2 < 256 := hb b2 (by simp)
    intro c hc
    fin_cases hc
    all_goals first
      | exact b64chr_ascii (by omega)
      | decide
  | case4 b1 b2 b3 rest ih =>
    have h1 : b1 < 256 := hb b1 (by simp)
    have h2 : b2 < 256 := hb b2 (by simp)
    have h3 : b3 < 256 := hb b3 (by simp)
    intro c hc
    simp [b64encodeBytes] at hc
    rcases hc with rfl | rfl | rfl | rfl | hm
    · exact b64chr_ascii (by omega)
    · exact b64chr_ascii (by omega)
    · exact b64chr_ascii (by omega)
    · exact b64chr_ascii (by omega)
    · exact ih (fun b hmb => hb b (by simp [hmb])) c hm

/-- `b64decode` inverts `b64encode` on byte sequences. -/
theorem b64decode_b64encode (bs : List Nat) (hb : ∀ b ∈ bs, b < 256) :
    b64decodeStr (b64encodeStr bs) = some bs := by
  have hascii : ((b64encodeStr bs).data.all fun c => decide (c.toNat < 0x80)) = true := by
    rw [List.all_eq_true]
    intro c hc
    exact decide_eq_true (b64encodeBytes_ascii bs hb c hc)
  unfold b64decodeStr
  rw [if_pos hascii]
  simpa using a2b_b64encodeBytes bs hb [] 0 0

/-! ## UTF-8 round trip -/

theorem char_valid_nat (c : Char) :
    c.toNat < 0xD800 ∨ (0xDFFF < c.toNat ∧ c.toNat < 0x110000) := c.valid

/-- One decode step inverts the single-character encoder. -/
theorem utf8Step_utf8Char (c : Char) (r : List Nat) :
    utf8Step (utf8Char c ++ r) = some (c.toNat, r) := by
  have hv := char_valid_nat c
  by_cases h1 : c.toNat < 0x80
  · simp [utf8Char, h1, utf8Step]
  by_cases h2 : c.toNat < 0x800
  · have c1 : ¬(0xC0 + c.toNat / 64 < 0x80) := by omega
    have c2 : ¬(0xC0 + c.toNat / 64 < 0xC2) := by omega
    have c3 : 0xC0 + c.toNat / 64 < 0xE0 := by omega
    have c4 : 0x80 ≤ 0x80 + c.toNat % 64 := by omega
    have c5 : 0x80 + c.toNat % 64 < 0xC0 := by omega
    simp [utf8Char, h1, h2, utf8Step, c1, c2, c3, c4, c5]
    omega
  by_cases h3 : c.toNat < 0x10000
  · have c1 : ¬(0xE0 + c.toNat / 4096 < 0x80) := by omega
    have c2 : ¬(0xE0 + c.toNat / 4096 < 0xC2) := by omega
    have c3 : ¬(0xE0 + c.toNat / 4096 < 0xE0) := by omega
    have c4 : 0xE0 + c.toNat / 4096 < 0xF0 := by omega
    have cb2a : 0x80 ≤ 0x80 + c.toNat % 64 := by omega
    have cb2b : 0x80 + c.toNat % 64 < 0xC0 := by omega
    by_cases hE0 : c.toNat < 0x1000
    · have heq : 0xE0 + c.toNat / 4096 = 0xE0 := by omega
      have hb1a : 0xA0 ≤ 0x80 + c.toNat / 64 % 64 := by omega
      have hb1b : 0x80 + c.toNat / 64 % 64 ≤ 0xBF := by omega
      simp [utf8Char, h1, h2, h3, utf8Step, c1, c2, c3, c4, heq, hb1a, hb1b, cb2a, cb2b]
      omega
    by_cases hED : c.toNat / 4096 = 13
    · have hlt : c.toNat < 0xD800 := by omega
      have heq : 0xE0 + c.toNat / 4096 = 0xED := by omega
      have hne : ¬(0xE0 + c.toNat / 4096 = 0xE0) := by omega
      have hb1a : 0x80 ≤ 0x80 + c.toNat / 64 % 64 := by omega
      have hb1b : 0x80 + c.toNat / 64 % 64 ≤ 0x9F := by omega
      simp [utf8Char, h1, h2, h3, utf8Step, c1, c2, c3, c4, heq, hne, hb1a, hb1b, cb2a, cb2b]
      omega
    · have hne1 : ¬(0xE0 + c.toNat / 4096 = 0xE0) := by omega
      have hne2 : ¬(0xE0 + c.toNat / 4096 = 0xED) := by omega
      have hb1a : 0x80 ≤ 0x80 + c.toNat / 64 % 64 := by omega
      have hb1b : 0x80 + c.toNat / 64 % 64 ≤ 0xBF := by omega
      simp [utf8Char, h1, h2, h3, utf8Step, c1, c2, c3, c4, hne1, hne2, hb1a, hb1b, cb2a, cb2b]
      omega
  · have hlt : c.toNat < 0x110000 := by omega
    have c1 : ¬(0xF0 + c.toNat / 0x40000 < 0x80) := by omega
    have c2 : ¬(0xF0 + c.toNat / 0x40000 < 0xC2) := by omega
    have c3 : ¬(0xF0 + c.toNat / 0x40000 < 0xE0) := by omega
    have c4 : ¬(0xF0 + c.toNat / 0x40000 < 0xF0) := by omega
    have c5 : 0xF0 + c.toNat / 0x40000 < 0xF5 := by omega
    have cb2a : 0x80 ≤ 0x80 + c.toNat / 64 % 64 := by omega
    have cb2b : 0x80 + c.toNat / 64 % 64 < 0xC0 := by omega
    have cb3a : 0x80 ≤ 0x80 + c.toNat % 64 := by omega
    have cb3b : 0x80 + c.toNat % 64 < 0xC0 := by omega
    by_cases hF0 : c.toNat < 0x40000
    · have heq : 0xF0 + c.toNat / 0x40000 = 0xF0 := by omega
      have hb1a : 0x90 ≤ 0x80 + c.toNat / 4096 % 64 := by omega
      have hb1b : 0x80 + c.toNat / 4096 % 64 ≤ 0xBF := by omega
      simp [utf8Char, h1, h2, h3, utf8Step, c1, c2, c3, c4, c5, heq, hb1a, hb1b,
        cb2a, cb2b, cb3a, cb3b]
      omega
    by_cases hF4 : c.toNat / 0x40000 = 4
    · have heq : 0xF0 + c.toNat / 0x40000 = 0xF4 := by omega
      have hne : ¬(0xF0 + c.toNat / 0x40000 = 0xF0) := by omega
      have hb1a : 0x80 ≤ 0x80 + c.toNat / 4096 % 64 := by omega
      have hb1b : 0x80 + c.toNat / 4096 % 64 ≤ 0x8F := by omega
      simp [utf8Char, h1, h2, h3, utf8Step, c1, c2, c3, c4, c5, heq, hne, hb1a, hb1b,
        cb2a, cb2b, cb3a, cb3b]
      omega
    · have hne1 : ¬(0xF0 + c.toNat / 0x40000 = 0xF0) := by omega
      have hne2 : ¬(0xF0 + c.toNat / 0x40000 = 0xF4) := by omega
      have hb1a : 0x80 ≤ 0x80 + c.toNat / 4096 % 64 := by omega
      have hb1b : 0x80 + c.toNat / 4096 % 64 ≤ 0xBF := by omega
      simp [utf8Char, h1, h2, h3, utf8Step, c1, c2, c3, c4, c5, hne1, hne2, hb1a, hb1b,
        cb2a, cb2b, cb3a, cb3b]
      omega

theorem utf8Char_ne_nil (c : Char) : utf8Char c ≠ [] := by
  unfold utf8Char
  split
  · simp
  · split
    · simp
    · split <;> simp

/-- The fuelled decode loop inverts the encoder whenever the fuel
covers the input length. -/
theorem utf8DecodeChars_utf8Chars (l : List Char) :
    ∀ fuel, (utf8Chars l).length ≤ fuel → utf8DecodeChars fuel (utf8Chars l) = some l := by
  induction l with
  | nil =>
    intro fuel _
    cases fuel <;> rfl
  | cons c cs ih =>
    intro fuel hfuel
    have hsplit : utf8Chars (c :: cs) = utf8Char c ++ utf8Chars cs := rfl
    rcases hE : utf8Char c with _ | ⟨b, bt⟩
    · exact absurd hE (utf8Char_ne_nil c)
    have hlen : bt.length + (utf8Chars cs).length + 1 ≤ fuel := by
      rw [hsplit, hE] at hfuel
      simpa using hfuel
    rcases fuel with _ | f
    · omega
    have hstep : utf8Step (b :: (bt ++ utf8Chars cs)) = some (c.toNat, utf8Chars cs) := by
      rw [← List.cons_append, ← hE]
      exact utf8Step_utf8Char c (utf8Chars cs)
    have hrest : (utf8Chars cs).length ≤ f := by omega
    rw [hsplit, hE, List.cons_append, utf8DecodeChars, hstep]
    simp [ih f hrest, Char.ofNat_toNat]

/-- `bytes.decode("utf-8")` inverts `str.encode("utf-8")`. -/
theorem utf8Decode_utf8Encode (s : String) : utf8Decode (utf8Encode s) = some s := by
  rcases s with ⟨l⟩
  simp [utf8Decode, utf8Encode, utf8DecodeChars_utf8Chars l _ le_rfl]

/-! ## Decimal digits -/

theorem isDig_digitCh {d : Nat} (h : d < 10) : isDig (digitCh d) = true := by
  revert h; revert d; decide

theorem isDig19_digitCh {d : Nat} (h1 : 1 ≤ d) (h2 : d < 10) : isDig19 (digitCh d) = true := by
  revert h1 h2; revert d; decide

theorem digitCh_toNat {d : Nat} (h : d < 10) : (digitCh d).toNat - 48 = d := by
  revert h; revert d; decide

theorem digitCh_ne_dash {d : Nat} (h : d < 10) : ¬(digitCh d = '-') := by
  revert h; revert d; decide

theorem digitsVal_append_one (xs : List Char) (c : Char) :
    digitsVal (xs ++ [c]) = digitsVal xs * 10 + (c.toNat - 48) := by
  simp [digitsVal, List.foldl_append]

theorem natDigitsAux_spec :
    ∀ f n, n < f →
      natDigitsAux f n ≠ [] ∧ (∀ c ∈ natDigitsAux f n, isDig c = true) ∧
        digitsVal (natDigitsAux f n) = n ∧
        (1 ≤ n → ∃ c ct, natDigitsAux f n = c :: ct ∧ isDig19 c = true) := by
  intro f
  induction f with
  | zero => intro n h; omega
  | succ f ih =>
    intro n h
    by_cases h10 : n < 10
    · refine ⟨by simp [natDigitsAux, h10], ?_, ?_, ?_⟩
      · intro c hc
        simp [natDigitsAux, h10] at hc
        subst hc
        exact isDig_digitCh h10
      · simp [natDigitsAux, h10, digitsVal, digitCh_toNat h10]
      · intro h1
        exact ⟨digitCh n, [], by simp [natDigitsAux, h10], isDig19_digitCh h1 h10⟩
    · have hd : n / 10 < f := by omega
      obtain ⟨hne, hdig, hval, hhead⟩ := ih (n / 10) hd
      have hsplit : natDigitsAux (f + 1) n = natDigitsAux f (n / 10) ++ [digitCh (n % 10)] := by
        simp [natDigitsAux, h10]
      refine ⟨by simp [hsplit, hne], ?_, ?_, ?_⟩
      · intro c hc
        rw [hsplit] at hc
        rcases List.mem_append.mp hc with hm | hm
        · exact hdig c hm
        · simp at hm
          subst hm
          exact isDig_digitCh (by omega)
      · rw [hsplit, digitsVal_append_one, hval, digitCh_toNat (by omega)]
        omega
      · intro _
        obtain ⟨c, ct, he, h19⟩ := hhead (by omega)
        exact ⟨c, ct ++ [digitCh (n % 10)], by simp [hsplit, he], h19⟩

theorem natDigits_ne_nil (n : Nat) : natDigits n ≠ [] :=
  (natDigitsAux_spec (n + 1) n (by omega)).1

theorem natDigits_all_dig (n : Nat) : ∀ c ∈ natDigits n, isDig c = true :=
  (natDigitsAux_spec (n + 1) n (by omega)).2.1

theorem digitsVal_natDigits (n : Nat) : digitsVal (natDigits n) = n :=
  (natDigitsAux_spec (n + 1) n (by omega)).2.2.1

theorem natDigits_head19 (n : Nat) (h : 1 ≤ n) :
    ∃ c ct, natDigits n = c :: ct ∧ isDig19 c = true :=
  (natDigitsAux_spec (n + 1) n (by omega)).2.2.2 h

theorem natDigits_zero : natDigits 0 = ['0'] := rfl

/-! ## Hexadecimal -/

theorem hexVal_hexCh {d : Nat} (h : d < 16) : hexVal (hexCh d) = some d := by
  revert h; revert d; decide

theorem parseHex4_hex4 {n : Nat} (h : n < 0x10000) (rest : List Char) :
    parseHex4 (hex4 n ++ rest) = some n := by
  have h1 : n / 4096 % 16 < 16 := Nat.mod_lt _ (by omega)
  have h2 : n / 256 % 16 < 16 := Nat.mod_lt _ (by omega)
  have h3 : n / 16 % 16 < 16 := Nat.mod_lt _ (by omega)
  have h4 : n % 16 < 16 := Nat.mod_lt _ (by omega)
  have e : ((n / 4096 % 16 * 16 + n / 256 % 16) * 16 + n / 16 % 16) * 16 + n % 16 = n := by
    omega
  simp [hex4, parseHex4, hexVal_hexCh h1, hexVal_hexCh h2, hexVal_hexCh h3, hexVal_hexCh h4, e]

theorem hex4_length (n : Nat) : (hex4 n).length = 4 := rfl

theorem hex4_drop (n : Nat) (rest : List Char) : (hex4 n ++ rest).drop 4 = rest := rfl

/-! ## Whitespace -/

theorem skipWs_not_ws {c : Char} (h : isWs c = false) (l : List Char) :
    skipWs (c :: l) = c :: l := by
  simp [skipWs, h]

theorem skipWs_ws_append {w : List Char} (h : ∀ c ∈ w, isWs c = true) (l : List Char) :
    skipWs (w ++ l) = skipWs l := by
  induction w with
  | nil => rfl
  | cons c cs ih =>
    have hc : isWs c = true := h c (by simp)
    simp [skipWs, hc]
    exact ih (fun c' hc' => h c' (by simp [hc']))

theorem ind_all_ws (lvl : Nat) : ∀ c ∈ ind lvl, isWs c = true := by
  intro c hc
  rw [ind, List.mem_replicate] at hc
  simp [hc.2, isWs]

theorem skipWs_ind (lvl : Nat) (l : List Char) : skipWs (ind lvl ++ l) = skipWs l :=
  skipWs_ws_append (ind_all_ws lvl) l

theorem skipWs_nl (l : List Char) : skipWs ('\n' :: l) = skipWs l := by
  simp [skipWs, isWs]

/-! ## String scanning: step lemmas -/

theorem toNat_ofNat_valid {n : Nat} (h : n.isValidChar) : (Char.ofNat n).toNat = n := by
  unfold Char.ofNat
  rw [dif_pos h]
  unfold Char.ofNatAux Char.toNat
  simp [UInt32.toNat, UInt32.ofNatCore, BitVec.toNat_ofNatLt]

theorem toNat_ofNat_small {n : Nat} (h : n < 0xD800) : (Char.ofNat n).toNat = n :=
  toNat_ofNat_valid (Or.inl h)

theorem escStr_nil : escStr [] = [] := rfl

theorem escStr_cons (cp : Nat) (tl : List Nat) : escStr (cp :: tl) = escCp cp ++ escStr tl :=
  rfl

theorem sbClose (f : Nat) (cs : List Char) :
    parseStringBody (f + 1) ('"' :: cs) = some ([], cs) := by
  rw [parseStringBody.eq_def]
  simp

theorem sbShort (f : Nat) {e : Char} {v : Nat} (cs : List Char) (hne : ¬(e = 'u'))
    (hv : escShort e = some v) :
    parseStringBody (f + 1) ('\\' :: e :: cs)
      = (parseStringBody f cs).map (fun p => (v :: p.1, p.2)) := by
  rw [parseStringBody]
  simp [hne, hv]

theorem sbUniPlain (f : Nat) {cs : List Char} {u : Nat} (hx : parseHex4 cs = some u)
    (hnhi : ¬(0xD800 ≤ u ∧ u ≤ 0xDBFF)) :
    parseStringBody (f + 1) ('\\' :: 'u' :: cs)
      = (parseStringBody f (cs.drop 4)).map (fun p => (u :: p.1, p.2)) := by
  rw [parseStringBody]
  simp [hx, hnhi]

theorem sbUniHiAlone (f : Nat) {cs : List Char} {u : Nat} (hx : parseHex4 cs = some u)
    (hhi : 0xD800 ≤ u ∧ u ≤ 0xDBFF) (hnl : notLoEsc (cs.drop 4)) :
    parseStringBody (f + 1) ('\\' :: 'u' :: cs)
      = (parseStringBody f (cs.drop 4)).map (fun p => (u :: p.1, p.2)) := by
  rw [parseStringBody]
  rcases hnl with hnl | ⟨u2, hx2, hlo⟩
  · simp [hx, hhi, hnl]
  · have hx2' : parseHex4 (cs.drop 6) = some u2 := by
      rw [List.drop_drop] at hx2
      simpa using hx2
    by_cases htake : (cs.drop 4).take 2 = ['\\', 'u']
    · have hnlo : ¬(0xDC00 ≤ u2 ∧ u2 ≤ 0xDFFF) := by
        simp [isLoSur] at hlo
        omega
      simp [hx, hhi, htake, hx2', hnlo]
    · simp [hx, hhi, htake]

theorem sbUniPair (f : Nat) {cs : List Char} {u u2 : Nat} (hx : parseHex4 cs = some u)
    (hhi : 0xD800 ≤ u ∧ u ≤ 0xDBFF) (htake : (cs.drop 4).take 2 = ['\\', 'u'])
    (hx2 : parseHex4 (cs.drop 6) = some u2) (hlo : 0xDC00 ≤ u2 ∧ u2 ≤ 0xDFFF) :
    parseStringBody (f + 1) ('\\' :: 'u' :: cs)
      = (parseStringBody f (cs.drop 10)).map
          (fun p => ((0x10000 + (u - 0xD800) * 0x400 + (u2 - 0xDC00)) :: p.1, p.2)) := by
  rw [parseStringBody]
  simp [hx, hhi, htake, hx2, hlo]

theorem sbLiteral (f : Nat) {c : Char} (cs : List Char) (h1 : ¬(c = '"')) (h2 : ¬(c = '\\'))
    (h3 : ¬(c.toNat < 0x20)) :
    parseStringBody (f + 1) (c :: cs)
      = (parseStringBody f cs).map (fun p => (c.toNat :: p.1, p.2)) := by
  rw [parseStringBody.eq_def]
  simp [h1, h2, h3]

theorem strOk_head {cp : Nat} {tl : List Nat} (h : strOk (cp :: tl) = true) : cp < 0x110000 := by
  simp [strOk] at h
  exact h.1.1

theorem strOk_tail {cp : Nat} {tl : List Nat} (h : strOk (cp :: tl) = true) :
    strOk tl = true := by
  simp [strOk] at h ⊢
  refine ⟨h.1.2, ?_⟩
  rcases tl with _ | ⟨cp2, tl2⟩
  · rfl
  · have h2 := h.2
    rw [noHiLo] at h2
    simp at h2
    exact h2.2

theorem strOk_noadj {cp cp2 : Nat} {tl2 : List Nat} (h : strOk (cp :: cp2 :: tl2) = true)
    (hhi : isHiSur cp = true) : isLoSur cp2 = false := by
  simp [strOk, noHiLo] at h
  rcases h.2.1 with hc | hc
  · exact absurd hhi (by simp [hc])
  · exact hc

/-! ## Escape printing: branch forms -/

theorem escCp_ctrl {cp : Nat} (h : cp < 0x20) (h8 : cp ≠ 8) (h9 : cp ≠ 9) (h10 : cp ≠ 10)
    (h12 : cp ≠ 12) (h13 : cp ≠ 13) : escCp cp = '\\' :: 'u' :: hex4 cp := by
  have c34 : cp ≠ 34 := by omega
  have c92 : cp ≠ 92 := by omega
  simp [escCp, c34, c92, h8, h9, h10, h12, h13, h]

theorem escCp_lit {cp : Nat} (ha : 0x20 ≤ cp) (hb : cp < 0x7f) (h34 : cp ≠ 34)
    (h92 : cp ≠ 92) : escCp cp = [Char.ofNat cp] := by
  have c8 : cp ≠ 8 := by omega
  have c9 : cp ≠ 9 := by omega
  have c10 : cp ≠ 10 := by omega
  have c12 : cp ≠ 12 := by omega
  have c13 : cp ≠ 13 := by omega
  simp [escCp, h34, h92, c8, c9, c10, c12, c13, hb, show ¬cp < 0x20 by omega]

theorem escCp_bmp {cp : Nat} (ha : 0x7f ≤ cp) (hb : cp < 0x10000) :
    escCp cp = '\\' :: 'u' :: hex4 cp := by
  have c8 : cp ≠ 8 := by omega
  have c9 : cp ≠ 9 := by omega
  have c10 : cp ≠ 10 := by omega
  have c12 : cp ≠ 12 := by omega
  have c13 : cp ≠ 13 := by omega
  have c34 : cp ≠ 34 := by omega
  have c92 : cp ≠ 92 := by omega
  simp [escCp, c34, c92, c8, c9, c10, c12, c13, hb, show ¬cp < 0x20 by omega,
    show ¬cp < 0x7f by omega]

theorem escCp_astral {cp : Nat} (ha : 0x10000 ≤ cp) :
    escCp cp = '\\' :: 'u' :: (hex4 (0xD800 + (cp - 0x10000) / 0x400) ++
      ('\\' :: 'u' :: hex4 (0xDC00 + (cp - 0x10000) % 0x400))) := by
  have c8 : cp ≠ 8 := by omega
  have c9 : cp ≠ 9 := by omega
  have c10 : cp ≠ 10 := by omega
  have c12 : cp ≠ 12 := by omega
  have c13 : cp ≠ 13 := by omega
  have c34 : cp ≠ 34 := by omega
  have c92 : cp ≠ 92 := by omega
  simp [escCp, c34, c92, c8, c9, c10, c12, c13, show ¬cp < 0x20 by omega,
    show ¬cp < 0x7f by omega, show ¬cp < 0x10000 by omega]

theorem hex4_drop6 (n : Nat) (l : List Char) : (hex4 n ++ l).drop 6 = l.drop 2 := rfl

theorem hiHalf_bounds {cp : Nat} (ha : 0x10000 ≤ cp) (hb : cp < 0x110000) :
    0xD800 ≤ 0xD800 + (cp - 0x10000) / 0x400 ∧ 0xD800 + (cp - 0x10000) / 0x400 ≤ 0xDBFF := by
  omega

theorem loHalf_bounds (cp : Nat) :
    0xDC00 ≤ 0xDC00 + (cp - 0x10000) % 0x400 ∧ 0xDC00 + (cp - 0x10000) % 0x400 ≤ 0xDFFF := by
  omega

theorem surrogate_recombine {cp : Nat} (ha : 0x10000 ≤ cp) :
    0x10000 + (0xD800 + (cp - 0x10000) / 0x400 - 0xD800) * 0x400 +
      (0xDC00 + (cp - 0x10000) % 0x400 - 0xDC00) = cp := by
  omega

/-! ## The combination test fails where it must -/

theorem notLoEsc_head {c : Char} (h : ¬c = '\\') (r : List Char) : notLoEsc (c :: r) := by
  left
  simp [List.take_succ_cons, h]

theorem notLoEsc_shortcut {x : Char} (h : ¬x = 'u') (r : List Char) :
    notLoEsc ('\\' :: x :: r) := by
  left
  simp [List.take_succ_cons, h]

theorem notLoEsc_uni {u2 : Nat} (h : isLoSur u2 = false) (hlt : u2 < 0x10000)
    (r : List Char) : notLoEsc ('\\' :: 'u' :: (hex4 u2 ++ r)) := by
  right
  exact ⟨u2, by simpa using parseHex4_hex4 hlt r, h⟩

/-- After a lone high surrogate, the printed continuation of a
well-formed string never starts with a low-surrogate escape. -/
theorem notLoEsc_escStr (tl : List Nat) (rest : List Char) (hok : strOk tl = true)
    (hhd : ∀ cp2 tl2, tl = cp2 :: tl2 → isLoSur cp2 = false) :
    notLoEsc (escStr tl ++ '"' :: rest) := by
  rcases tl with _ | ⟨cp2, tl2⟩
  · rw [escStr_nil]
    exact notLoEsc_head (by decide) rest
  have hlo : isLoSur cp2 = false := hhd cp2 tl2 rfl
  have hlt : cp2 < 0x110000 := strOk_head hok
  rw [escStr_cons, List.append_assoc]
  by_cases h34 : cp2 = 34
  · subst h34
    exact notLoEsc_shortcut (by decide) _
  by_cases h92 : cp2 = 92
  · subst h92
    exact notLoEsc_shortcut (by decide) _
  by_cases h8 : cp2 = 8
  · subst h8
    exact notLoEsc_shortcut (by decide) _
  by_cases h9 : cp2 = 9
  · subst h9
    exact notLoEsc_shortcut (by decide) _
  by_cases h10 : cp2 = 10
  · subst h10
    exact notLoEsc_shortcut (by decide) _
  by_cases h12 : cp2 = 12
  · subst h12
    exact notLoEsc_shortcut (by decide) _
  by_cases h13 : cp2 = 13
  · subst h13
    exact notLoEsc_shortcut (by decide) _
  by_cases hctl : cp2 < 0x20
  · rw [escCp_ctrl hctl h8 h9 h10 h12 h13, List.cons_append, List.cons_append]
    exact notLoEsc_uni (by simp [isLoSur]; omega) (by omega) _
  by_cases hlit : cp2 < 0x7f
  · rw [escCp_lit (by omega) hlit h34 h92]
    refine notLoEsc_head ?_ _
    intro hc
    have := toNat_ofNat_small (n := cp2) (by omega)
    rw [hc] at this
    simp at this
    omega
  by_cases hbmp : cp2 < 0x10000
  · rw [escCp_bmp (by omega) hbmp, List.cons_append, List.cons_append]
    exact notLoEsc_uni hlo hbmp _
  · rw [escCp_astral (by omega), List.cons_append, List.cons_append, List.append_assoc]
    refine notLoEsc_uni ?_ (by omega) _
    simp [isLoSur]
    omega

/-! ## String scanning inverts escape printing -/

theorem escCp_length_pos (cp : Nat) : 1 ≤ (escCp cp).length := by
  unfold escCp
  repeat' split
  all_goals simp [hex4]

theorem hex4_drop10 (a b : Nat) (l : List Char) :
    (hex4 a ++ ('\\' :: 'u' :: (hex4 b ++ l))).drop 10 = l := rfl

/-- The string scanner recovers exactly the code points whose escapes
were printed, for every well-formed string value. -/
theorem parseStringBody_escStr :
    ∀ (s : List Nat), strOk s = true →
      ∀ (rest : List Char) (fuel : Nat), (escStr s ++ '"' :: rest).length < fuel →
        parseStringBody fuel (escStr s ++ '"' :: rest) = some (s, rest) := by
  intro s
  induction s with
  | nil =>
    intro _ rest fuel hf
    rw [escStr_nil, List.nil_append] at hf ⊢
    rcases fuel with _ | f
    · omega
    · exact sbClose f rest
  | cons cp tl ih =>
    intro hok rest fuel hf
    have hlt : cp < 0x110000 := strOk_head hok
    have htl : strOk tl = true := strOk_tail hok
    rw [escStr_cons, List.append_assoc] at hf ⊢
    rcases fuel with _ | f
    · omega
    have hL : (escStr tl ++ '"' :: rest).length < f := by
      have hpos := escCp_length_pos cp
      rw [List.length_append] at hf
      omega
    have ihL := ih htl rest f hL
    have short : ∀ (e : Char) (v : Nat), ¬e = 'u' → escShort e = some v →
        parseStringBody (f + 1) ('\\' :: e :: (escStr tl ++ '"' :: rest))
          = some (v :: tl, rest) := by
      intro e v hne hesc
      rw [sbShort f _ hne hesc, ihL]
      rfl
    by_cases h34 : cp = 34
    · subst h34
      rw [show escCp 34 = ['\\', '"'] from rfl, List.cons_append, List.cons_append,
        List.nil_append]
      exact short '"' 34 (by decide) rfl
    by_cases h92 : cp = 92
    · subst h92
      rw [show escCp 92 = ['\\', '\\'] from rfl, List.cons_append, List.cons_append,
        List.nil_append]
      exact short '\\' 92 (by decide) rfl
    by_cases h8 : cp = 8
    · subst h8
      rw [show escCp 8 = ['\\', 'b'] from rfl, List.cons_append, List.cons_append,
        List.nil_append]
      exact short 'b' 8 (by decide) rfl
    by_cases h9 : cp = 9
    · subst h9
      rw [show escCp 9 = ['\\', 't'] from rfl, List.cons_append, List.cons_append,
        List.nil_append]
      exact short 't' 9 (by decide) rfl
    by_cases h10 : cp = 10
    · subst h10
      rw [show escCp 10 = ['\\', 'n'] from rfl, List.cons_append, List.cons_append,
        List.nil_append]
      exact short 'n' 10 (by decide) rfl
    by_cases h12 : cp = 12
    · subst h12
      rw [show escCp 12 = ['\\', 'f'] from rfl, List.cons_append, List.cons_append,
        List.nil_append]
      exact short 'f' 12 (by decide) rfl
    by_cases h13 : cp = 13
    · subst h13
      rw [show escCp 13 = ['\\', 'r'] from rfl, List.cons_append, List.cons_append,
        List.nil_append]
      exact short 'r' 13 (by decide) rfl
    by_cases hctl : cp < 0x20
    · rw [escCp_ctrl hctl h8 h9 h10 h12 h13, List.cons_append, List.cons_append]
      rw [sbUniPlain f (parseHex4_hex4 (by omega) _) (by omega)]
      rw [hex4_drop, ihL]
      rfl
    by_cases hlit : cp < 0x7f
    · have htn := toNat_ofNat_small (n := cp) (by omega)
      have hq : ¬(Char.ofNat cp = '"') := by
        intro h
        rw [h] at htn
        simp at htn
        omega
      have hbs : ¬(Char.ofNat cp = '\\') := by
        intro h
        rw [h] at htn
        simp at htn
        omega
      have h20 : ¬((Char.ofNat cp).toNat < 0x20) := by
        rw [htn]
        omega
      rw [escCp_lit (by omega) hlit h34 h92, List.cons_append, List.nil_append]
      rw [sbLiteral f _ hq hbs h20, ihL]
      simp [htn]
    by_cases hbmp : cp < 0x10000
    · by_cases hhi : 0xD800 ≤ cp ∧ cp ≤ 0xDBFF
      · have hadj : ∀ cp2 tl2, tl = cp2 :: tl2 → isLoSur cp2 = false := by
          intro cp2 tl2 he
          subst he
          exact strOk_noadj hok (by simp [isHiSur]; omega)
        have hnl : notLoEsc ((hex4 cp ++ (escStr tl ++ '"' :: rest)).drop 4) := by
          rw [hex4_drop]
          exact notLoEsc_escStr tl rest htl hadj
        rw [escCp_bmp (by omega) hbmp, List.cons_append, List.cons_append]
        rw [sbUniHiAlone f (parseHex4_hex4 hbmp _) hhi hnl]
        rw [hex4_drop, ihL]
        rfl
      · rw [escCp_bmp (by omega) hbmp, List.cons_append, List.cons_append]
        rw [sbUniPlain f (parseHex4_hex4 hbmp _) hhi]
        rw [hex4_drop, ihL]
        rfl
    · have ha : 0x10000 ≤ cp := by omega
      have hhalf := hiHalf_bounds ha hlt
      have lhalf := loHalf_bounds cp
      rw [escCp_astral ha, List.cons_append, List.cons_append, List.append_assoc,
        List.cons_append, List.cons_append]
      rw [sbUniPair f (parseHex4_hex4 (by omega) _) hhalf
        (by rw [hex4_drop]; rfl)
        (by rw [hex4_drop6]; exact parseHex4_hex4 (by omega) _) lhalf]
      rw [hex4_drop10, ihL]
      simp
      omega

/-! ## Number round trip -/

theorem numStop_not_dig {r : List Char} (h : numStop r = true) :
    ∀ c, r.head? = some c → isDig c = false := by
  rcases r with _ | ⟨c, r'⟩
  · simp
  · intro c' hc'
    simp at hc'
    subst hc'
    simp [numStop] at h
    have : isDig c = false := by tauto
    exact this

theorem numFrac_stop {r : List Char} (h : numStop r = true) : numFrac r = ([], r) := by
  rcases r with _ | ⟨c, r'⟩
  · rfl
  · simp [numStop] at h
    have hdot : ¬(c = '.') := by tauto
    rw [numFrac.eq_def]
    rcases r' with _ | ⟨c2, r2⟩
    · simp [hdot]
    · simp [hdot]

theorem numExp_stop {r : List Char} (h : numStop r = true) : numExp r = ([], r) := by
  rcases r with _ | ⟨c, r'⟩
  · rfl
  · simp [numStop] at h
    have he : ¬(c = 'e') := by tauto
    have hE : ¬(c = 'E') := by tauto
    rw [numExp.eq_def]
    simp [he, hE]

theorem spanDigits_full {ds : List Char} (hds : ∀ c ∈ ds, isDig c = true) {r : List Char}
    (hr : ∀ c, r.head? = some c → isDig c = false) : spanDigits (ds ++ r) = (ds, r) := by
  induction ds with
  | nil =>
    rcases r with _ | ⟨c, r'⟩
    · rfl
    · have := hr c rfl
      simp [spanDigits, this]
  | cons d ds' ih =>
    have hd : isDig d = true := hds d (by simp)
    have ih' := ih (fun c hc => hds c (by simp [hc]))
    simp [spanDigits, hd, ih']

theorem isDig19_ne_dash {c : Char} (h : isDig19 c = true) : ¬(c = '-') := by
  intro he
  subst he
  simp [isDig19] at h

theorem isDig19_ne_zero {c : Char} (h : isDig19 c = true) : ¬(c = '0') := by
  intro he
  subst he
  simp [isDig19] at h

/-- The number scanner recovers exactly the printed integer. -/
theorem parseNumber_intRepr (n : Int) (rest : List Char) (hstop : numStop rest = true) :
    parseNumber (intRepr n ++ rest) = some (Json.num n, rest) := by
  have hfr := numFrac_stop hstop
  have hex := numExp_stop hstop
  have hhd := numStop_not_dig hstop
  by_cases hneg : n < 0
  · have habs : 1 ≤ n.natAbs := by omega
    obtain ⟨c, ct, hE, h19⟩ := natDigits_head19 n.natAbs habs
    have hdash := isDig19_ne_dash h19
    have hzero := isDig19_ne_zero h19
    have hall := natDigits_all_dig n.natAbs
    have hct : ∀ x ∈ ct, isDig x = true := by
      intro x hx
      exact hall x (by simp [hE, hx])
    have hspan : spanDigits (ct ++ rest) = (ct, rest) := spanDigits_full hct hhd
    have hval : digitsVal (c :: ct) = n.natAbs := by
      rw [← hE]
      exact digitsVal_natDigits n.natAbs
    rw [intRepr, if_pos hneg, hE]
    simp only [List.cons_append]
    rw [parseNumber]
    simp [hdash, hzero, h19, hspan, hfr, hex, hval]
    simp [abs_of_neg hneg]
  · have hnn : 0 ≤ n := by omega
    rw [intRepr, if_neg hneg]
    by_cases h0 : n.toNat = 0
    · rw [h0, natDigits_zero]
      simp only [List.cons_append, List.nil_append]
      rw [parseNumber]
      simp [hfr, hex, digitsVal]
      omega
    · obtain ⟨c, ct, hE, h19⟩ := natDigits_head19 n.toNat (by omega)
      have hdash := isDig19_ne_dash h19
      have hzero := isDig19_ne_zero h19
      have hall := natDigits_all_dig n.toNat
      have hct : ∀ x ∈ ct, isDig x = true := by
        intro x hx
        exact hall x (by simp [hE, hx])
      have hspan : spanDigits (ct ++ rest) = (ct, rest) := spanDigits_full hct hhd
      have hval : digitsVal (c :: ct) = n.toNat := by
        rw [← hE]
        exact digitsVal_natDigits n.toNat
      rw [hE]
      simp only [List.cons_append]
      rw [parseNumber]
      simp [hdash, hzero, h19, hspan, hfr, hex, hval]
      omega

/-! ## Objects rebuilt by `dict` insertion -/

theorem jappend_nil (a : JObj) : jappend a .nil = a := by
  match a with
  | .nil => rfl
  | .cons k v ps => simp [jappend, jappend_nil ps]

theorem jappend_single (k : List Nat) (v : Json) (b : JObj) :
    jappend (JObj.cons k v .nil) b = JObj.cons k v b := rfl

theorem jappend_assoc (a b c : JObj) : jappend (jappend a b) c = jappend a (jappend b c) := by
  match a with
  | .nil => rfl
  | .cons k v ps => simp [jappend, jappend_assoc ps b c]

theorem hasKey_jappend (a b : JObj) (k : List Nat) :
    hasKey (jappend a b) k = (hasKey a k || hasKey b k) := by
  match a with
  | .nil => simp [jappend, hasKey]
  | .cons k' v ps => simp [jappend, hasKey, hasKey_jappend ps b k, Bool.or_assoc]

theorem insertR_not_mem {acc : JObj} {k : List Nat} (h : hasKey acc k = false) (v : Json) :
    insertR acc k v = jappend acc (JObj.cons k v .nil) := by
  match acc with
  | .nil => rfl
  | .cons k' v' ps =>
    simp [hasKey] at h
    simp [insertR, jappend, h.1, insertR_not_mem h.2 v]

theorem foldl_insertR_pairs (o : JObj) :
    ∀ (acc : JObj), nodupKeys o = true →
      (∀ k', hasKey o k' = true → hasKey acc k' = false) →
      List.foldl (fun o kv => insertR o kv.1 kv.2) acc (pairsOf o) = jappend acc o := by
  match o with
  | .nil =>
    intro acc _ _
    simp [pairsOf, jappend_nil]
  | .cons k v ps =>
    intro acc hnd hdisj
    simp [nodupKeys] at hnd
    have hacc : hasKey acc k = false := hdisj k (by simp [hasKey])
    rw [pairsOf, List.foldl_cons, insertR_not_mem hacc]
    rw [foldl_insertR_pairs ps (jappend acc (JObj.cons k v .nil)) hnd.2]
    · rw [jappend_assoc, jappend_single]
    · intro k' hk'
      rw [hasKey_jappend]
      have h1 : hasKey acc k' = false := hdisj k' (by simp [hasKey, hk'])
      have h2 : ¬(k = k') := by
        intro he
        subst he
        simp [hnd.1] at hk'
      simp [h1, hasKey, h2]

/-- With duplicate-free keys, `dict` insertion rebuilds the object. -/
theorem objOf_pairsOf {o : JObj} (h : nodupKeys o = true) : objOf (pairsOf o) = o := by
  have := foldl_insertR_pairs o .nil h (fun k' _ => by simp [hasKey])
  simpa [objOf, jappend] using this

/-! ## Value dispatch: step lemmas -/

theorem pvStr (f : Nat) (cs : List Char) :
    parseVal (f + 1) ('"' :: cs)
      = (parseStringBody (cs.length + 1) cs).map (fun p => (Json.str p.1, p.2)) := by
  rw [parseVal.eq_def]
  simp

theorem pvObjEmpty (f : Nat) {cs r : List Char} (h : skipWs cs = '\x7d' :: r) :
    parseVal (f + 1) ('\x7b' :: cs) = some (Json.obj .nil, r) := by
  rw [parseVal.eq_def]
  simp [h]

theorem pvObjItems (f : Nat) {cs l2 : List Char} (h : skipWs cs = '"' :: l2) :
    parseVal (f + 1) ('\x7b' :: cs)
      = (parseMembers f ('"' :: l2)).map (fun p => (Json.obj (objOf p.1), p.2)) := by
  rw [parseVal.eq_def]
  simp [h]

theorem pvArrEmpty (f : Nat) {cs r : List Char} (h : skipWs cs = ']' :: r) :
    parseVal (f + 1) ('[' :: cs) = some (Json.arr .nil, r) := by
  rw [parseVal.eq_def]
  simp [h]

theorem pvArrItems (f : Nat) {cs l2 : List Char} {c : Char} (h : skipWs cs = c :: l2)
    (hc : ¬(c = ']')) :
    parseVal (f + 1) ('[' :: cs)
      = (parseItems f (c :: l2)).map (fun p => (Json.arr p.1, p.2)) := by
  rw [parseVal.eq_def]
  simp [h, hc]

theorem pvNull (f : Nat) (r : List Char) :
    parseVal (f + 1) ('n' :: 'u' :: 'l' :: 'l' :: r) = some (Json.null, r) := by
  rw [parseVal.eq_def]
  simp

theorem pvTrue (f : Nat) (r : List Char) :
    parseVal (f + 1) ('t' :: 'r' :: 'u' :: 'e' :: r) = some (Json.bool true, r) := by
  rw [parseVal.eq_def]
  simp

theorem pvFalse (f : Nat) (r : List Char) :
    parseVal (f + 1) ('f' :: 'a' :: 'l' :: 's' :: 'e' :: r) = some (Json.bool false, r) := by
  rw [parseVal.eq_def]
  simp

theorem dig_head_facts {c : Char} (h : isDig c = true) :
    ¬(c = '"') ∧ ¬(c = '\x7b') ∧ ¬(c = '[') ∧ ¬(c = 'n') ∧ ¬(c = 't') ∧ ¬(c = 'f') := by
  refine ⟨?_, ?_, ?_, ?_, ?_, ?_⟩ <;> intro he <;> subst he <;> simp [isDig] at h

theorem pvNum (f : Nat) {c : Char} {cs : List Char} {v : Json} {r : List Char}
    (hc : c = '-' ∨ isDig c = true) (hp : parseNumber (c :: cs) = some (v, r)) :
    parseVal (f + 1) (c :: cs) = some (v, r) := by
  have hd : ¬(c = '"') ∧ ¬(c = '\x7b') ∧ ¬(c = '[') ∧ ¬(c = 'n') ∧ ¬(c = 't') ∧ ¬(c = 'f') := by
    rcases hc with rfl | hc
    · exact ⟨by decide, by decide, by decide, by decide, by decide, by decide⟩
    · exact dig_head_facts hc
  obtain ⟨h1, h2, h3, h4, h5, h6⟩ := hd
  rw [parseVal.eq_def]
  simp [h1, h2, h3, h4, h5, h6, hp]

theorem piStepCons (f : Nat) {l r r2 : List Char} {v : Json}
    (hv : parseVal f l = some (v, r)) (hws : skipWs r = ',' :: r2) :
    parseItems (f + 1) l
      = (parseItems f (skipWs r2)).map (fun p => (JArr.cons v p.1, p.2)) := by
  rw [parseItems]
  simp [hv, hws]

theorem piStepLast (f : Nat) {l r r2 : List Char} {v : Json}
    (hv : parseVal f l = some (v, r)) (hws : skipWs r = ']' :: r2) :
    parseItems (f + 1) l = some (JArr.cons v .nil, r2) := by
  rw [parseItems]
  simp [hv, hws]

theorem pmStepCons (f : Nat) {cs r1 r2 r3 r4 : List Char} {k : List Nat} {v : Json}
    (hk : parseStringBody (cs.length + 1) cs = some (k, r1))
    (hc : skipWs r1 = ':' :: r2)
    (hv : parseVal f (skipWs r2) = some (v, r3))
    (hws : skipWs r3 = ',' :: r4) :
    parseMembers (f + 1) ('"' :: cs)
      = (parseMembers f (skipWs r4)).map (fun p => ((k, v) :: p.1, p.2)) := by
  rw [parseMembers]
  simp [hk, hc, hv, hws]

theorem pmStepLast (f : Nat) {cs r1 r2 r3 r4 : List Char} {k : List Nat} {v : Json}
    (hk : parseStringBody (cs.length + 1) cs = some (k, r1))
    (hc : skipWs r1 = ':' :: r2)
    (hv : parseVal f (skipWs r2) = some (v, r3))
    (hws : skipWs r3 = '\x7d' :: r4) :
    parseMembers (f + 1) ('"' :: cs) = some ([(k, v)], r4) := by
  rw [parseMembers]
  simp [hk, hc, hv, hws]

/-! ## Heads of printed values -/

theorem isDig_not_ws {c : Char} (h : isDig c = true) : isWs c = false := by
  by_contra hw
  simp at hw
  simp [isWs] at hw
  rcases hw with ((rfl | rfl) | rfl) | rfl <;> simp [isDig] at h

theorem isDig_ne_rb {c : Char} (h : isDig c = true) : ¬(c = ']') := by
  intro he
  subst he
  simp [isDig] at h

/-- Every printed float-free value starts with a non-whitespace
character that is not a closing bracket. -/
theorem printVal_head (lvl : Nat) (v : Json) (hff : floatFree v = true) :
    ∃ c t, printVal lvl v = c :: t ∧ isWs c = false ∧ ¬(c = ']') := by
  match v with
  | .null => exact ⟨'n', _, rfl, by decide, by decide⟩
  | .bool true => exact ⟨'t', _, rfl, by decide, by decide⟩
  | .bool false => exact ⟨'f', _, rfl, by decide, by decide⟩
  | .num n =>
    show ∃ c t, intRepr n = c :: t ∧ _
    by_cases hn : n < 0
    · rw [intRepr, if_pos hn]
      exact ⟨'-', _, rfl, by decide, by decide⟩
    · rw [intRepr, if_neg hn]
      by_cases h0 : n.toNat = 0
      · rw [h0, natDigits_zero]
        exact ⟨'0', _, rfl, by decide, by decide⟩
      · obtain ⟨c, ct, hE, h19⟩ := natDigits_head19 n.toNat (by omega)
        have hd : isDig c = true := by
          simp [isDig19] at h19
          simp [isDig]
          constructor
          · exact le_trans (by decide) h19.1
          · exact h19.2
        exact ⟨c, ct, hE, isDig_not_ws hd, isDig_ne_rb hd⟩
  | .fnum lex => simp [floatFree] at hff
  | .str s => exact ⟨'"', _, rfl, by decide, by decide⟩
  | .arr .nil => exact ⟨'[', _, rfl, by decide, by decide⟩
  | .arr (.cons x xs) => exact ⟨'[', _, rfl, by decide, by decide⟩
  | .obj .nil => exact ⟨'\x7b', _, rfl, by decide, by decide⟩
  | .obj (.cons k v2 ps) => exact ⟨'\x7b', _, rfl, by decide, by decide⟩

theorem printVal_length_pos (lvl : Nat) (v : Json) (hff : floatFree v = true) :
    1 ≤ (printVal lvl v).length := by
  obtain ⟨c, t, hE, -, -⟩ := printVal_head lvl v hff
  simp [hE]

/-! ## The scanner inverts the printer -/

/-- One fuel induction carrying the value form, the array-items form and
the object-members form together: every printed (well-formed, float-free)
value is scanned back to itself, leaving the trailing input intact. -/
theorem roundtrip_bundle :
    ∀ fuel : Nat,
      (∀ (v : Json) (lvl : Nat) (rest : List Char),
        wfJ v = true → floatFree v = true → numStop rest = true →
        2 * (printVal lvl v ++ rest).length + 1 ≤ fuel →
        parseVal fuel (printVal lvl v ++ rest) = some (v, rest))
      ∧ (∀ (x : Json) (xs : JArr) (lvl lvlC : Nat) (rest : List Char),
        wfJ x = true → wfA xs = true → floatFree x = true → floatFreeA xs = true →
        2 * (printVal lvl x ++ (printArrTail lvl xs ++
          ('\n' :: (ind lvlC ++ (']' :: rest))))).length + 2 ≤ fuel →
        parseItems fuel (printVal lvl x ++ (printArrTail lvl xs ++
          ('\n' :: (ind lvlC ++ (']' :: rest)))))
          = some (JArr.cons x xs, rest))
      ∧ (∀ (k : List Nat) (v : Json) (ps : JObj) (lvl lvlC : Nat) (rest : List Char),
        strOk k = true → wfJ v = true → wfO ps = true → floatFree v = true →
        floatFreeO ps = true →
        2 * ('"' :: (escStr k ++ ('"' :: ':' :: ' ' :: (printVal lvl v ++
          (printObjTail lvl ps ++ ('\n' :: (ind lvlC ++ ('\x7d' :: rest)))))))).length + 2
          ≤ fuel →
        parseMembers fuel ('"' :: (escStr k ++ ('"' :: ':' :: ' ' :: (printVal lvl v ++
          (printObjTail lvl ps ++ ('\n' :: (ind lvlC ++ ('\x7d' :: rest))))))))
          = some (pairsOf (JObj.cons k v ps), rest)) := by
  intro fuel
  induction fuel with
  | zero =>
    refine ⟨?_, ?_, ?_⟩
    · intro v lvl rest _ _ _ hb
      omega
    · intro x xs lvl lvlC rest _ _ _ _ hb
      omega
    · intro k v ps lvl lvlC rest _ _ _ _ _ hb
      omega
  | succ f IH =>
    obtain ⟨IHv, IHi, IHm⟩ := IH
    have headNE : ∀ (c : Char), isWs c = false → ∀ (t r : List Char),
        skipWs ((c :: t) ++ r) = c :: (t ++ r) := by
      intro c hws t r
      rw [List.cons_append, skipWs_not_ws hws]
    refine ⟨?_, ?_, ?_⟩
    · -- values
      intro v lvl rest hwf hff hstop hfuel
      match v with
      | .null =>
        simp only [printVal, List.cons_append, List.nil_append]
        exact pvNull f rest
      | .bool true =>
        simp only [printVal, List.cons_append, List.nil_append]
        exact pvTrue f rest
      | .bool false =>
        simp only [printVal, List.cons_append, List.nil_append]
        exact pvFalse f rest
      | .num n =>
        have hp := parseNumber_intRepr n rest hstop
        show parseVal (f + 1) (intRepr n ++ rest) = some (Json.num n, rest)
        by_cases hn : n < 0
        · rw [intRepr, if_pos hn] at hp ⊢
          rw [List.cons_append] at hp ⊢
          exact pvNum f (Or.inl rfl) hp
        · rw [intRepr, if_neg hn] at hp ⊢
          by_cases h0 : n.toNat = 0
          · rw [h0, natDigits_zero] at hp ⊢
            rw [List.cons_append, List.nil_append] at hp ⊢
            exact pvNum f (Or.inr (by decide)) hp
          · obtain ⟨c, ct, hE, h19⟩ := natDigits_head19 n.toNat (by omega)
            have hd : isDig c = true := by
              simp [isDig19] at h19
              simp [isDig]
              exact ⟨le_trans (by decide) h19.1, h19.2⟩
            rw [hE] at hp ⊢
            rw [List.cons_append] at hp ⊢
            exact pvNum f (Or.inr hd) hp
      | .fnum lex => simp [floatFree] at hff
      | .str s =>
        have hok : strOk s = true := by simpa [wfJ] using hwf
        have hpr : printVal lvl (Json.str s) ++ rest = '"' :: (escStr s ++ ('"' :: rest)) := by
          simp [printVal, quoteStr, List.append_assoc]
        rw [hpr, pvStr f _]
        rw [parseStringBody_escStr s hok rest _ (Nat.lt_succ_self _)]
        rfl
      | .arr .nil =>
        have hpr : printVal lvl (Json.arr .nil) ++ rest = '[' :: (']' :: rest) := by
          simp [printVal]
        rw [hpr]
        exact pvArrEmpty f (skipWs_not_ws (by decide) rest)
      | .arr (.cons x xs) =>
        have hwx : wfJ x = true := by
          simp [wfJ, wfA] at hwf
          tauto
        have hwxs : wfA xs = true := by
          simp [wfJ, wfA] at hwf
          tauto
        have hffx : floatFree x = true := by
          simp [floatFree, floatFreeA] at hff
          tauto
        have hffxs : floatFreeA xs = true := by
          simp [floatFree, floatFreeA] at hff
          tauto
        have hpr : printVal lvl (Json.arr (.cons x xs)) ++ rest
            = '[' :: '\n' :: (ind (lvl + 1) ++ (printVal (lvl + 1) x ++
              (printArrTail (lvl + 1) xs ++ ('\n' :: (ind lvl ++ (']' :: rest)))))) := by
          simp [printVal, List.append_assoc]
        rw [hpr]
        obtain ⟨c, t, hE, hcw, hcr⟩ := printVal_head (lvl + 1) x hffx
        have hskip : skipWs ('\n' :: (ind (lvl + 1) ++ (printVal (lvl + 1) x ++
            (printArrTail (lvl + 1) xs ++ ('\n' :: (ind lvl ++ (']' :: rest)))))))
            = c :: (t ++ (printArrTail (lvl + 1) xs ++ ('\n' :: (ind lvl ++ (']' :: rest))))) := by
          rw [skipWs_nl, skipWs_ind, hE, headNE c hcw]
        rw [pvArrItems f hskip hcr, ← List.cons_append, ← hE]
        have hb2 : 2 * (printVal (lvl + 1) x ++ (printArrTail (lvl + 1) xs ++
            ('\n' :: (ind lvl ++ (']' :: rest))))).length + 2 ≤ f := by
          rw [hpr] at hfuel
          simp only [List.length_append, List.length_cons] at hfuel ⊢
          omega
        rw [IHi x xs (lvl + 1) lvl rest hwx hwxs hffx hffxs hb2]
        rfl
      | .obj .nil =>
        have hpr : printVal lvl (Json.obj .nil) ++ rest = '\x7b' :: ('\x7d' :: rest) := by
          simp [printVal]
        rw [hpr]
        exact pvObjEmpty f (skipWs_not_ws (by decide) rest)
      | .obj (.cons k v2 ps) =>
        have hstrk : strOk k = true := by
          simp [wfJ, wfO] at hwf
          tauto
        have hwv : wfJ v2 = true := by
          simp [wfJ, wfO] at hwf
          tauto
        have hwps : wfO ps = true := by
          simp [wfJ, wfO] at hwf
          tauto
        have hnd : nodupKeys (JObj.cons k v2 ps) = true := by
          simp [wfJ] at hwf
          tauto
        have hffv : floatFree v2 = true := by
          simp [floatFree, floatFreeO] at hff
          tauto
        have hffps : floatFreeO ps = true := by
          simp [floatFree, floatFreeO] at hff
          tauto
        have hpr : printVal lvl (Json.obj (.cons k v2 ps)) ++ rest
            = '\x7b' :: '\n' :: (ind (lvl + 1) ++ ('"' :: (escStr k ++ ('"' :: ':' :: ' ' ::
              (printVal (lvl + 1) v2 ++ (printObjTail (lvl + 1) ps ++
                ('\n' :: (ind lvl ++ ('\x7d' :: rest))))))))) := by
          simp [printVal, quoteStr, List.append_assoc]
        rw [hpr]
        have hskip : skipWs ('\n' :: (ind (lvl + 1) ++ ('"' :: (escStr k ++ ('"' :: ':' :: ' ' ::
            (printVal (lvl + 1) v2 ++ (printObjTail (lvl + 1) ps ++
              ('\n' :: (ind lvl ++ ('\x7d' :: rest)))))))))) = '"' :: (escStr k ++ ('"' :: ':' ::
            ' ' :: (printVal (lvl + 1) v2 ++ (printObjTail (lvl + 1) ps ++
              ('\n' :: (ind lvl ++ ('\x7d' :: rest))))))) := by
          rw [skipWs_nl, skipWs_ind, skipWs_not_ws (by decide)]
        rw [pvObjItems f hskip]
        have hb2 : 2 * ('"' :: (escStr k ++ ('"' :: ':' :: ' ' :: (printVal (lvl + 1) v2 ++
            (printObjTail (lvl + 1) ps ++ ('\n' :: (ind lvl ++ ('\x7d' :: rest)))))))).length + 2
            ≤ f := by
          rw [hpr] at hfuel
          simp only [List.length_append, List.length_cons] at hfuel ⊢
          omega
        rw [IHm k v2 ps (lvl + 1) lvl rest hstrk hwv hwps hffv hffps hb2]
        simp [objOf_pairsOf hnd]
    · -- array items
      intro x xs lvl lvlC rest hwx hwxs hffx hffxs hb
      have hstop2 : numStop (printArrTail lvl xs ++ ('\n' :: (ind lvlC ++ (']' :: rest))))
          = true := by
        match xs with
        | .nil => simp [printArrTail, numStop, isDig]
        | .cons y ys => simp [printArrTail, numStop, isDig]
      have hv : parseVal f (printVal lvl x ++ (printArrTail lvl xs ++
          ('\n' :: (ind lvlC ++ (']' :: rest)))))
          = some (x, printArrTail lvl xs ++ ('\n' :: (ind lvlC ++ (']' :: rest)))) := by
        apply IHv x lvl _ hwx hffx hstop2
        omega
      match xs with
      | .nil =>
        have hws : skipWs (printArrTail lvl JArr.nil ++ ('\n' :: (ind lvlC ++ (']' :: rest))))
            = ']' :: rest := by
          simp only [printArrTail, List.nil_append]
          rw [skipWs_nl, skipWs_ind, skipWs_not_ws (by decide)]
        exact piStepLast f hv hws
      | .cons y ys =>
        have hwy : wfJ y = true := by
          simp [wfA] at hwxs
          tauto
        have hwys : wfA ys = true := by
          simp [wfA] at hwxs
          tauto
        have hffy : floatFree y = true := by
          simp [floatFreeA] at hffxs
          tauto
        have hffys : floatFreeA ys = true := by
          simp [floatFreeA] at hffxs
          tauto
        have htail : printArrTail lvl (JArr.cons y ys) ++ ('\n' :: (ind lvlC ++ (']' :: rest)))
            = ',' :: ('\n' :: (ind lvl ++ (printVal lvl y ++ (printArrTail lvl ys ++
              ('\n' :: (ind lvlC ++ (']' :: rest))))))) := by
          simp [printArrTail, List.append_assoc]
        have hws : skipWs (printArrTail lvl (JArr.cons y ys) ++
            ('\n' :: (ind lvlC ++ (']' :: rest))))
            = ',' :: ('\n' :: (ind lvl ++ (printVal lvl y ++ (printArrTail lvl ys ++
              ('\n' :: (ind lvlC ++ (']' :: rest))))))) := by
          rw [htail]
          exact skipWs_not_ws (by decide) _
        rw [piStepCons f hv hws]
        obtain ⟨c, t, hE, hcw, hcr⟩ := printVal_head lvl y hffy
        have hskip2 : skipWs ('\n' :: (ind lvl ++ (printVal lvl y ++ (printArrTail lvl ys ++
            ('\n' :: (ind lvlC ++ (']' :: rest)))))))
            = c :: (t ++ (printArrTail lvl ys ++ ('\n' :: (ind lvlC ++ (']' :: rest))))) := by
          rw [skipWs_nl, skipWs_ind, hE, headNE c hcw]
        rw [hskip2, ← List.cons_append, ← hE]
        have hby : 2 * (printVal lvl y ++ (printArrTail lvl ys ++
            ('\n' :: (ind lvlC ++ (']' :: rest))))).length + 2 ≤ f := by
          have hpos := printVal_length_pos lvl x hffx
          rw [htail] at hb
          simp only [List.length_append, List.length_cons] at hb ⊢
          omega
        rw [IHi y ys lvl lvlC rest hwy hwys hffy hffys hby]
        rfl
    · -- object members
      intro k v ps lvl lvlC rest hstrk hwv hwps hffv hffps hb
      have hkparse : parseStringBody ((escStr k ++ ('"' :: ':' :: ' ' :: (printVal lvl v ++
          (printObjTail lvl ps ++ ('\n' :: (ind lvlC ++ ('\x7d' :: rest))))))).length + 1)
          (escStr k ++ ('"' :: ':' :: ' ' :: (printVal lvl v ++
            (printObjTail lvl ps ++ ('\n' :: (ind lvlC ++ ('\x7d' :: rest)))))))
          = some (k, ':' :: ' ' :: (printVal lvl v ++ (printObjTail lvl ps ++
              ('\n' :: (ind lvlC ++ ('\x7d' :: rest)))))) :=
        parseStringBody_escStr k hstrk _ _ (Nat.lt_succ_self _)
      have hstop2 : numStop (printObjTail lvl ps ++ ('\n' :: (ind lvlC ++ ('\x7d' :: rest))))
          = true := by
        match ps with
        | .nil => simp [printObjTail, numStop, isDig]
        | .cons k2 v2 ps2 => simp [printObjTail, numStop, isDig]
      obtain ⟨c, t, hE, hcw, hcr⟩ := printVal_head lvl v hffv
      have hskipv : skipWs (' ' :: (printVal lvl v ++ (printObjTail lvl ps ++
          ('\n' :: (ind lvlC ++ ('\x7d' :: rest))))))
          = printVal lvl v ++ (printObjTail lvl ps ++
            ('\n' :: (ind lvlC ++ ('\x7d' :: rest)))) := by
        rw [show skipWs (' ' :: (printVal lvl v ++ (printObjTail lvl ps ++
          ('\n' :: (ind lvlC ++ ('\x7d' :: rest))))))
          = skipWs (printVal lvl v ++ (printObjTail lvl ps ++
            ('\n' :: (ind lvlC ++ ('\x7d' :: rest))))) by simp [skipWs, isWs]]
        rw [hE, headNE c hcw, ← List.cons_append, ← hE]
      have hv2 : parseVal f (skipWs (' ' :: (printVal lvl v ++ (printObjTail lvl ps ++
          ('\n' :: (ind lvlC ++ ('\x7d' :: rest)))))))
          = some (v, printObjTail lvl ps ++ ('\n' :: (ind lvlC ++ ('\x7d' :: rest)))) := by
        rw [hskipv]
        apply IHv v lvl _ hwv hffv hstop2
        simp only [List.length_append, List.length_cons] at hb ⊢
        omega
      have hcolon : skipWs (':' :: ' ' :: (printVal lvl v ++ (printObjTail lvl ps ++
          ('\n' :: (ind lvlC ++ ('\x7d' :: rest))))))
          = ':' :: (' ' :: (printVal lvl v ++ (printObjTail lvl ps ++
            ('\n' :: (ind lvlC ++ ('\x7d' :: rest)))))) := skipWs_not_ws (by decide) _
      match ps with
      | .nil =>
        have hws : skipWs (printObjTail lvl JObj.nil ++ ('\n' :: (ind lvlC ++
            ('\x7d' :: rest)))) = '\x7d' :: rest := by
          simp only [printObjTail, List.nil_append]
          rw [skipWs_nl, skipWs_ind, skipWs_not_ws (by decide)]
        rw [pmStepLast f hkparse hcolon hv2 hws]
        rfl
      | .cons k2 v2 ps2 =>
        have hstrk2 : strOk k2 = true := by
          simp [wfO] at hwps
          tauto
        have hwv2 : wfJ v2 = true := by
          simp [wfO] at hwps
          tauto
        have hwps2 : wfO ps2 = true := by
          simp [wfO] at hwps
          tauto
        have hffv2 : floatFree v2 = true := by
          simp [floatFreeO] at hffps
          tauto
        have hffps2 : floatFreeO ps2 = true := by
          simp [floatFreeO] at hffps
          tauto
        have htail : printObjTail lvl (JObj.cons k2 v2 ps2) ++ ('\n' :: (ind lvlC ++
            ('\x7d' :: rest)))
            = ',' :: ('\n' :: (ind lvl ++ ('"' :: (escStr k2 ++ ('"' :: ':' :: ' ' ::
              (printVal lvl v2 ++ (printObjTail lvl ps2 ++ ('\n' :: (ind lvlC ++
                ('\x7d' :: rest)))))))))) := by
          simp [printObjTail, quoteStr, List.append_assoc]
        have hws : skipWs (printObjTail lvl (JObj.cons k2 v2 ps2) ++ ('\n' :: (ind lvlC ++
            ('\x7d' :: rest))))
            = ',' :: ('\n' :: (ind lvl ++ ('"' :: (escStr k2 ++ ('"' :: ':' :: ' ' ::
              (printVal lvl v2 ++ (printObjTail lvl ps2 ++ ('\n' :: (ind lvlC ++
                ('\x7d' :: rest)))))))))) := by
          rw [htail]
          exact skipWs_not_ws (by decide) _
        rw [pmStepCons f hkparse hcolon hv2 hws]
        have hskip3 : skipWs ('\n' :: (ind lvl ++ ('"' :: (escStr k2 ++ ('"' :: ':' :: ' ' ::
            (printVal lvl v2 ++ (printObjTail lvl ps2 ++ ('\n' :: (ind lvlC ++
              ('\x7d' :: rest))))))))))
            = '"' :: (escStr k2 ++ ('"' :: ':' :: ' ' :: (printVal lvl v2 ++
              (printObjTail lvl ps2 ++ ('\n' :: (ind lvlC ++ ('\x7d' :: rest))))))) := by
          rw [skipWs_nl, skipWs_ind, skipWs_not_ws (by decide)]
        rw [hskip3]
        have hb2 : 2 * ('"' :: (escStr k2 ++ ('"' :: ':' :: ' ' :: (printVal lvl v2 ++
            (printObjTail lvl ps2 ++ ('\n' :: (ind lvlC ++ ('\x7d' :: rest)))))))).length + 2
            ≤ f := by
          have hpos := printVal_length_pos lvl v hffv
          rw [htail] at hb
          simp only [List.length_append, List.length_cons] at hb ⊢
          omega
        rw [IHm k2 v2 ps2 lvl lvlC rest hstrk2 hwv2 hwps2 hffv2 hffps2 hb2]
        rfl

/-- Parsing the program's own printed output (plus the newline `print`
appends) recovers the value exactly. -/
theorem loads_dumps (v : Json) (hwf : wfJ v = true) (hff : floatFree v = true) :
    loads (dumps v ++ "\n") = some v := by
  have hdata : (dumps v ++ "\n").data = printVal 0 v ++ ['\n'] := by
    rw [String.data_append]
    rfl
  rw [loads, hdata]
  obtain ⟨c, t, hE, hcw, -⟩ := printVal_head 0 v hff
  rw [loadsChars]
  have hskip : skipWs (printVal 0 v ++ ['\n']) = printVal 0 v ++ ['\n'] := by
    rw [hE, List.cons_append]
    exact skipWs_not_ws hcw _
  rw [hskip]
  rw [(roundtrip_bundle (2 * (printVal 0 v ++ ['\n']).length + 2)).1 v 0 ['\n'] hwf hff
    (by decide) (by omega)]
  simp [skipWs, isWs]

/-! ## The scanner only produces well-formed values -/

theorem escShort_range {e : Char} {v : Nat} (h : escShort e = some v) :
    v < 0x110000 ∧ isHiSur v = false ∧ isLoSur v = false := by
  unfold escShort at h
  split_ifs at h <;> simp_all [isHiSur, isLoSur] <;> omega

theorem noHiLo_cons {a : Nat} {tl : List Nat} (ha : isHiSur a = false)
    (htl : noHiLo tl = true) : noHiLo (a :: tl) = true := by
  rcases tl with _ | ⟨b, t⟩
  · rfl
  · simp [noHiLo, ha, htl]

theorem noHiLo_cons_notlo {a b : Nat} {t : List Nat} (hb : isLoSur b = false)
    (htl : noHiLo (b :: t) = true) : noHiLo (a :: b :: t) = true := by
  simp [noHiLo, hb, htl]

theorem strOk_cons {cp : Nat} {tl : List Nat} (h1 : cp < 0x110000)
    (h2 : noHiLo (cp :: tl) = true) (h3 : strOk tl = true) : strOk (cp :: tl) = true := by
  simp [strOk] at h3 ⊢
  exact ⟨⟨h1, h3.1⟩, h2⟩

theorem char_not_surrogate (c : Char) : isHiSur c.toNat = false ∧ isLoSur c.toNat = false := by
  have := char_valid_nat c
  simp [isHiSur, isLoSur]
  omega

theorem hexVal_lt {x : Char} {y : Nat} (h : hexVal x = some y) : y < 16 := by
  unfold hexVal at h
  split_ifs at h with h1 h2 h3
  · have hx : x.toNat ≤ 57 := h1.2
    simp at h
    omega
  · have hx : x.toNat ≤ 102 := h2.2
    have hx2 : 97 ≤ x.toNat := h2.1
    simp at h
    omega
  · have hx : x.toNat ≤ 70 := h3.2
    have hx2 : 65 ≤ x.toNat := h3.1
    simp at h
    omega

theorem parseHex4_lt : ∀ {l : List Char} {u : Nat}, parseHex4 l = some u → u < 0x10000 := by
  intro l u h
  rcases l with _ | ⟨a, l⟩
  · simp [parseHex4] at h
  rcases l with _ | ⟨b, l⟩
  · simp [parseHex4] at h
  rcases l with _ | ⟨c, l⟩
  · simp [parseHex4] at h
  rcases l with _ | ⟨d, l⟩
  · simp [parseHex4] at h
  rw [parseHex4] at h
  rcases hva : hexVal a with _ | va <;> rw [hva] at h
  · simp at h
  rcases hvb : hexVal b with _ | vb <;> rw [hvb] at h
  · simp at h
  rcases hvc : hexVal c with _ | vc <;> rw [hvc] at h
  · simp at h
  rcases hvd : hexVal d with _ | vd <;> rw [hvd] at h
  · simp at h
  simp at h
  have b1 := hexVal_lt hva
  have b2 := hexVal_lt hvb
  have b3 := hexVal_lt hvc
  have b4 := hexVal_lt hvd
  omega

/-- Everything the string scanner returns is a well-formed string, and
when its first code point is a low surrogate, the input begins with that
code point's `\u` escape (so a combination test just before this call
would have fired). -/
theorem parseStringBody_wf :
    ∀ (fuel : Nat) (l : List Char) (s : List Nat) (r : List Char),
      parseStringBody fuel l = some (s, r) →
      strOk s = true ∧ (∀ cp tl, s = cp :: tl → isLoSur cp = true →
        l.take 2 = ['\\', 'u'] ∧ parseHex4 (l.drop 2) = some cp) := by
  intro fuel
  induction fuel with
  | zero =>
    intro l s r h
    simp [parseStringBody] at h
  | succ f ih =>
    intro l s r h
    rcases l with _ | ⟨c, cs⟩
    · simp [parseStringBody] at h
    rw [show parseStringBody (f + 1) (c :: cs)
        = (if c = '"' then some ([], cs)
          else if c = '\\' then
            match cs with
            | [] => none
            | e :: cs2 =>
              if e = 'u' then
                match parseHex4 cs2 with
                | none => none
                | some u =>
                  if 0xD800 ≤ u ∧ u ≤ 0xDBFF then
                    if (cs2.drop 4).take 2 = ['\\', 'u'] then
                      match parseHex4 ((cs2.drop 4).drop 2) with
                      | none => none
                      | some u2 =>
                        if 0xDC00 ≤ u2 ∧ u2 ≤ 0xDFFF then
                          (parseStringBody f ((cs2.drop 4).drop 6)).map
                            (fun p => ((0x10000 + (u - 0xD800) * 0x400 + (u2 - 0xDC00)) :: p.1,
                              p.2))
                        else (parseStringBody f (cs2.drop 4)).map (fun p => (u :: p.1, p.2))
                    else (parseStringBody f (cs2.drop 4)).map (fun p => (u :: p.1, p.2))
                  else (parseStringBody f (cs2.drop 4)).map (fun p => (u :: p.1, p.2))
              else
                match escShort e with
                | some cp => (parseStringBody f cs2).map (fun p => (cp :: p.1, p.2))
                | none => none
          else if c.toNat < 0x20 then none
          else (parseStringBody f cs).map (fun p => (c.toNat :: p.1, p.2))) from rfl] at h
    by_cases hq : c = '"'
    · rw [if_pos hq] at h
      simp at h
      obtain ⟨hs, -⟩ := h
      subst hs
      exact ⟨by decide, by simp⟩
    rw [if_neg hq] at h
    by_cases hbs : c = '\\'
    · rw [if_pos hbs] at h
      subst hbs
      rcases cs with _ | ⟨e, cs2⟩
      · simp at h
      simp only [] at h
      by_cases hu : e = 'u'
      · rw [if_pos hu] at h
        subst hu
        rcases hx : parseHex4 cs2 with _ | u
        · rw [hx] at h
          simp at h
        rw [hx] at h
        simp only [] at h
        by_cases hhi : 0xD800 ≤ u ∧ u ≤ 0xDBFF
        · rw [if_pos hhi] at h
          by_cases htake : (cs2.drop 4).take 2 = ['\\', 'u']
          · rw [if_pos htake] at h
            rcases hx2 : parseHex4 ((cs2.drop 4).drop 2) with _ | u2
            · rw [hx2] at h
              simp at h
            rw [hx2] at h
            simp only [] at h
            by_cases hlo : 0xDC00 ≤ u2 ∧ u2 ≤ 0xDFFF
            · rw [if_pos hlo] at h
              rw [Option.map_eq_some'] at h
              obtain ⟨⟨s', r'⟩, hrec, heq⟩ := h
              obtain ⟨hok', hinv'⟩ := ih _ _ _ hrec
              simp at heq
              obtain ⟨hs, hr⟩ := heq
              subst hs
              have hcp : 0x10000 + (u - 0xD800) * 0x400 + (u2 - 0xDC00) < 0x110000 := by
                omega
              have hnh : isHiSur (0x10000 + (u - 0xD800) * 0x400 + (u2 - 0xDC00)) = false := by
                simp [isHiSur]
                omega
              refine ⟨strOk_cons hcp ?_ hok', ?_⟩
              · rcases s' with _ | ⟨b, t⟩
                · rfl
                · refine noHiLo_cons hnh ?_
                  simp [strOk] at hok'
                  exact hok'.2
              · intro cp tl he hlo'
                rw [List.cons.injEq] at he
                rw [← he.1] at hlo'
                simp [isLoSur] at hlo'
                omega
            · rw [if_neg hlo] at h
              rw [Option.map_eq_some'] at h
              obtain ⟨⟨s', r'⟩, hrec, heq⟩ := h
              obtain ⟨hok', hinv'⟩ := ih _ _ _ hrec
              simp at heq
              obtain ⟨hs, hr⟩ := heq
              subst hs
              have hnl : ∀ b t, s' = b :: t → isLoSur b = false := by
                intro b t hb
                by_contra hlob
                simp at hlob
                have h2 := (hinv' b t hb hlob).2
                rw [hx2] at h2
                simp at h2
                subst h2
                simp [isLoSur] at hlob
                omega
              refine ⟨strOk_cons (by omega) ?_ hok', ?_⟩
              · rcases hs' : s' with _ | ⟨b, t⟩
                · rfl
                · exact noHiLo_cons_notlo (hnl b t hs') (by
                    simp [strOk, hs'] at hok'
                    simp [hok'.2])
              · intro cp tl he hlo'
                rw [List.cons.injEq] at he
                rw [← he.1] at hlo'
                simp [isLoSur] at hlo'
                omega
          · rw [if_neg htake] at h
            rw [Option.map_eq_some'] at h
            obtain ⟨⟨s', r'⟩, hrec, heq⟩ := h
            obtain ⟨hok', hinv'⟩ := ih _ _ _ hrec
            simp at heq
            obtain ⟨hs, hr⟩ := heq
            subst hs
            have hnl : ∀ b t, s' = b :: t → isLoSur b = false := by
              intro b t hb
              by_contra hlob
              simp at hlob
              exact absurd (hinv' b t hb hlob).1 htake
            refine ⟨strOk_cons (by omega) ?_ hok', ?_⟩
            · rcases hs' : s' with _ | ⟨b, t⟩
              · rfl
              · exact noHiLo_cons_notlo (hnl b t hs') (by
                  simp [strOk, hs'] at hok'
                  simp [hok'.2])
            · intro cp tl he hlo'
              rw [List.cons.injEq] at he
              rw [← he.1] at hlo'
              simp [isLoSur] at hlo'
              omega
        · rw [if_neg hhi] at h
          rw [Option.map_eq_some'] at h
          obtain ⟨⟨s', r'⟩, hrec, heq⟩ := h
          obtain ⟨hok', hinv'⟩ := ih _ _ _ hrec
          simp at heq
          obtain ⟨hs, hr⟩ := heq
          subst hs
          have hx4 : parseHex4 cs2 = some u := hx
          have hub : u < 0x10000 := parseHex4_lt hx
          refine ⟨strOk_cons (by omega) ?_ hok', ?_⟩
          · have hnh : isHiSur u = false := by
              simp [isHiSur]
              omega
            rcases s' with _ | ⟨b, t⟩
            · rfl
            · refine noHiLo_cons hnh ?_
              simp [strOk] at hok'
              exact hok'.2
          · intro cp tl he hlo'
            rw [List.cons.injEq] at he
            obtain ⟨he1, -⟩ := he
            subst he1
            exact ⟨rfl, by simpa using hx4⟩
      · rw [if_neg hu] at h
        rcases hesc : escShort e with _ | v0
        · rw [hesc] at h
          simp at h
        rw [hesc] at h
        rw [Option.map_eq_some'] at h
        obtain ⟨⟨s', r'⟩, hrec, heq⟩ := h
        obtain ⟨hok', hinv'⟩ := ih _ _ _ hrec
        simp at heq
        obtain ⟨hs, hr⟩ := heq
        subst hs
        obtain ⟨hv1, hv2, hv3⟩ := escShort_range hesc
        refine ⟨strOk_cons hv1 ?_ hok', ?_⟩
        · rcases s' with _ | ⟨b, t⟩
          · rfl
          · refine noHiLo_cons hv2 ?_
            simp [strOk] at hok'
            exact hok'.2
        · intro cp tl he hlo'
          rw [List.cons.injEq] at he
          rw [← he.1] at hlo'
          rw [hv3] at hlo'
          simp at hlo'
    · rw [if_neg hbs] at h
      by_cases hctl : c.toNat < 0x20
      · rw [if_pos hctl] at h
        simp at h
      rw [if_neg hctl] at h
      rw [Option.map_eq_some'] at h
      obtain ⟨⟨s', r'⟩, hrec, heq⟩ := h
      obtain ⟨hok', hinv'⟩ := ih _ _ _ hrec
      simp at heq
      obtain ⟨hs, hr⟩ := heq
      subst hs
      obtain ⟨hch, hcl⟩ := char_not_surrogate c
      have hlt : c.toNat < 0x110000 := by
        have := char_valid_nat c
        omega
      refine ⟨strOk_cons hlt ?_ hok', ?_⟩
      · rcases s' with _ | ⟨b, t⟩
        · rfl
        · refine noHiLo_cons hch ?_
          simp [strOk] at hok'
          exact hok'.2
      · intro cp tl he hlo'
        rw [List.cons.injEq] at he
        rw [← he.1] at hlo'
        rw [hcl] at hlo'
        simp at hlo'


/-! ## Parser output is well formed -/

theorem hasKey_insertR (o : JObj) (k k2 : List Nat) (v : Json) :
    hasKey (insertR o k v) k2 = (decide (k = k2) || hasKey o k2) := by
  match o with
  | .nil => simp [insertR, hasKey]
  | .cons k1 v1 ps =>
    rw [insertR]
    split
    · rename_i hk; subst hk
      simp [hasKey]
    · rename_i hk
      simp [hasKey, hasKey_insertR ps k k2 v]
      try rw [Bool.or_left_comm]

theorem nodupKeys_insertR (o : JObj) (k : List Nat) (v : Json)
    (h : nodupKeys o = true) : nodupKeys (insertR o k v) = true := by
  match o with
  | .nil => simp [insertR, nodupKeys, hasKey]
  | .cons k1 v1 ps =>
    rw [insertR]
    rw [nodupKeys] at h
    simp at h
    split
    · rename_i hk; subst hk
      simp [nodupKeys, h.1, h.2]
    · rename_i hk
      simp [nodupKeys, hasKey_insertR, h.1, nodupKeys_insertR ps k v h.2]
      exact fun hkk => absurd hkk.symm hk

theorem wfO_insertR (o : JObj) (k : List Nat) (v : Json)
    (hk : strOk k = true) (hv : wfJ v = true)
    (h : wfO o = true) : wfO (insertR o k v) = true := by
  match o with
  | .nil => simp [insertR, wfO, hk, hv]
  | .cons k1 v1 ps =>
    rw [insertR]
    rw [wfO] at h
    simp at h
    split
    · simp [wfO, h.1.1, hv, h.2]
    · simp [wfO, h.1.1, h.1.2, wfO_insertR ps k v hk hv h.2]

theorem foldl_insertR_wf (l : List (List Nat × Json)) :
    ∀ (o : JObj), (∀ a b, (a, b) ∈ l → strOk a = true ∧ wfJ b = true) →
      wfO o = true → nodupKeys o = true →
      wfO (l.foldl (fun o kv => insertR o kv.1 kv.2) o) = true ∧
      nodupKeys (l.foldl (fun o kv => insertR o kv.1 kv.2) o) = true := by
  induction l with
  | nil => intro o _ h1 h2; exact ⟨h1, h2⟩
  | cons kv t ih =>
    intro o hl h1 h2
    have hkv := hl kv.1 kv.2 (by simp)
    exact ih (insertR o kv.1 kv.2)
      (fun a b hab => hl a b (by simp [hab]))
      (wfO_insertR o kv.1 kv.2 hkv.1 hkv.2 h1)
      (nodupKeys_insertR o kv.1 kv.2 h2)

theorem objOf_wf (l : List (List Nat × Json))
    (h : ∀ a b, (a, b) ∈ l → strOk a = true ∧ wfJ b = true) :
    wfO (objOf l) = true ∧ nodupKeys (objOf l) = true :=
  foldl_insertR_wf l .nil h rfl rfl

theorem parseNumber_wf {l : List Char} {v : Json} {r : List Char}
    (h : parseNumber l = some (v, r)) : wfJ v = true := by
  unfold parseNumber at h
  repeat' split at h
  all_goals try simp_all [wfJ]
  rename_i c cs
  rcases hsc : (if c = '-' then cs else c :: cs) with _ | ⟨c1, cs1⟩ <;> rw [hsc] at h
  · simp at h
  · repeat' split at h
    all_goals simp at h
    all_goals obtain ⟨hv, -⟩ := h
    all_goals subst hv
    all_goals rfl

set_option maxHeartbeats 2000000 in
theorem wf_bundle : ∀ fuel : Nat,
    (∀ l v r, parseVal fuel l = some (v, r) → wfJ v = true) ∧
    (∀ l xs r, parseItems fuel l = some (xs, r) → wfA xs = true) ∧
    (∀ l ps r, parseMembers fuel l = some (ps, r) →
      ∀ a b, (a, b) ∈ ps → strOk a = true ∧ wfJ b = true) := by
  intro fuel
  induction fuel with
  | zero =>
    refine ⟨?_, ?_, ?_⟩
    · intro l v r h; simp [parseVal] at h
    · intro l xs r h; simp [parseItems] at h
    · intro l ps r h; simp [parseMembers] at h
  | succ f ih =>
    obtain ⟨IHv, IHi, IHm⟩ := ih
    refine ⟨?_, ?_, ?_⟩
    · intro l v r h
      rw [parseVal.eq_def] at h
      repeat' split at h
      all_goals try simp_all
      · obtain ⟨a, ha, hv⟩ := h
        subst hv
        exact (parseStringBody_wf _ _ _ _ ha).1
      · obtain ⟨hv, -⟩ := h
        subst hv
        rfl
      · obtain ⟨a, ha, hv⟩ := h
        subst hv
        have hw := objOf_wf a (IHm _ _ _ ha)
        show (wfO (objOf a) && nodupKeys (objOf a)) = true
        simp [hw.1, hw.2]
      · obtain ⟨hv, -⟩ := h
        subst hv
        rfl
      · obtain ⟨a, ha, hv⟩ := h
        subst hv
        exact IHi _ _ _ ha
      · obtain ⟨hv, -⟩ := h
        subst hv
        rfl
      · obtain ⟨hv, -⟩ := h
        subst hv
        rfl
      · obtain ⟨hv, -⟩ := h
        subst hv
        rfl
      · exact parseNumber_wf (by assumption)
      · obtain ⟨hv, -⟩ := h
        subst hv
        rfl
      · obtain ⟨hv, -⟩ := h
        subst hv
        rfl
      · obtain ⟨hv, -⟩ := h
        subst hv
        rfl
    · intro l xs r h
      rw [parseItems.eq_def] at h
      repeat' split at h
      all_goals try simp_all
      · obtain ⟨a, ha, hx⟩ := h
        subst hx
        simp [wfA]
        exact ⟨IHv _ _ _ (by assumption), IHi _ _ _ ha⟩
      · obtain ⟨hx, -⟩ := h
        subst hx
        simp [wfA]
        exact IHv _ _ _ (by assumption)
    · intro l ps r h
      rw [parseMembers.eq_def] at h
      repeat' split at h
      all_goals try simp_all
      · obtain ⟨a, ha, hp⟩ := h
        subst hp
        intro x y hxy
        rcases List.mem_cons.mp hxy with hxy | hxy
        · injection hxy with hx hy
          subst hx; subst hy
          exact ⟨(parseStringBody_wf _ _ _ _ (by assumption)).1, IHv _ _ _ (by assumption)⟩
        · exact IHm _ _ _ ha x y hxy
      · obtain ⟨hp, -⟩ := h
        subst hp
        intro x y hxy
        simp at hxy
        obtain ⟨hx, hy⟩ := hxy
        subst hx; subst hy
        exact ⟨(parseStringBody_wf _ _ _ _ (by assumption)).1, IHv _ _ _ (by assumption)⟩

theorem parseVal_nil {f : Nat} : parseVal f ([] : List Char) = none := by
  match f with
  | 0 => rfl
  | f + 1 => rfl

theorem loads_wf {s : String} {v : Json} (h : loads s = some v) : wfJ v = true := by
  unfold loads loadsChars at h
  rcases hm : parseVal (2 * s.data.length + 2) (skipWs s.data) with _ | ⟨⟨w, r⟩⟩
  · rw [hm] at h
    simp at h
  · rw [hm] at h
    simp only [] at h
    split at h
    · have hw : w = v := by simpa using h
      subst hw
      exact (wf_bundle _).1 _ _ _ hm
    · simp at h

/-! ## First characters of parseable text -/

theorem parseNumber_head {l : List Char} {p : Json × List Char}
    (h : parseNumber l = some p) :
    ∃ c cs, l = c :: cs ∧ 0x21 ≤ c.toNat ∧ c.toNat ≤ 0x7B := by
  rcases l with _ | ⟨c, cs⟩
  · simp [parseNumber] at h
  · refine ⟨c, cs, rfl, ?_⟩
    by_cases hc : c = '-'
    · subst hc; decide
    · unfold parseNumber at h
      simp only [show (c == '-') = false from beq_eq_false_iff_ne.mpr hc,
        Bool.false_eq_true, if_false] at h
      split at h
      · rename_i hd
        rcases hd with hd | hd
        · subst hd; decide
        · have h12 : '1' ≤ c ∧ c ≤ '9' := by
            simpa [isDig19] using hd
          have h1n : (49 : Nat) ≤ c.toNat := h12.1
          have h2n : c.toNat ≤ 57 := h12.2
          omega
      · simp at h

theorem parseVal_head {f : Nat} {l : List Char} {p : Json × List Char}
    (h : parseVal f l = some p) :
    ∃ c cs, l = c :: cs ∧ 0x21 ≤ c.toNat ∧ c.toNat ≤ 0x7B := by
  match f with
  | 0 => simp [parseVal] at h
  | f + 1 =>
    rcases l with _ | ⟨c, cs⟩
    · simp [parseVal] at h
    · refine ⟨c, cs, rfl, ?_⟩
      rw [parseVal.eq_def] at h
      repeat' split at h
      all_goals try simp_all
      · rename_i heq
        obtain ⟨c2, cs2, hl, h1, h2⟩ := parseNumber_head heq
        injection hl with hl1 _
        subst hl1
        exact ⟨h1, h2⟩

theorem parseVal_nul {f : Nat} {xs : List Char} :
    parseVal f ('\x00' :: xs) = none := by
  cases hpv : parseVal f ('\x00' :: xs) with
  | none => rfl
  | some p =>
    obtain ⟨c, cs, hc, h1, h2⟩ := parseVal_head hpv
    injection hc with hc1 _
    rw [← hc1] at h1
    exact absurd h1 (by decide)

theorem parseStringBody_nul {f : Nat} {xs : List Char} :
    parseStringBody f ('\x00' :: xs) = none := by
  match f with
  | 0 => rfl
  | f + 1 => rfl

theorem parseMembers_nul {f : Nat} {xs : List Char} :
    parseMembers f ('\x00' :: xs) = none := by
  match f with
  | 0 => rfl
  | f + 1 => rfl

theorem parseItems_nul {f : Nat} {xs : List Char} :
    parseItems f ('\x00' :: xs) = none := by
  match f with
  | 0 => rfl
  | f + 1 =>
    rw [parseItems.eq_def]
    simp [parseVal_nul]

theorem skipWs_nul (xs : List Char) : skipWs ('\x00' :: xs) = '\x00' :: xs := by
  rw [skipWs]
  simp [isWs]

theorem parseNumber_nul2 {c : Char} {rest : List Char} {p : Json × List Char}
    (h : parseNumber (c :: '\x00' :: rest) = some p) : p.2 = '\x00' :: rest := by
  by_cases hc : c = '-'
  · subst hc
    unfold parseNumber at h
    simp only [] at h
    norm_num at h
    exact absurd h.1 (by decide)
  · unfold parseNumber at h
    simp only [show (c == '-') = false from beq_eq_false_iff_ne.mpr hc,
      Bool.false_eq_true, if_false] at h
    split at h
    · rename_i hd
      rcases hd with hd | hd
      · subst hd
        simp [spanDigits, numFrac, numExp, isDig] at h
        try rw [← h]
        try rfl
      · have hco : ¬c = '0' := by
          intro hz; subst hz; simp [isDig19] at hd
          try omega
        simp [hco, spanDigits, isDig, numFrac, numExp] at h
        try rw [← h]
        try rfl
    · simp at h

theorem parseVal_nul2 {f : Nat} {c : Char} {rest : List Char} {p : Json × List Char}
    (h : parseVal f (c :: '\x00' :: rest) = some p) : p.2 = '\x00' :: rest := by
  match f with
  | 0 => simp [parseVal] at h
  | f + 1 =>
    rw [show parseVal (f + 1) (c :: '\x00' :: rest) =
      (if c = '"' then
        (parseStringBody (('\x00' :: rest).length + 1) ('\x00' :: rest)).map
          (fun p => (Json.str p.1, p.2))
      else if c = '\x7b' then
        match skipWs ('\x00' :: rest) with
        | '\x7d' :: r => some (Json.obj .nil, r)
        | l1 => (parseMembers f l1).map (fun p => (Json.obj (objOf p.1), p.2))
      else if c = '[' then
        match skipWs ('\x00' :: rest) with
        | ']' :: r => some (Json.arr .nil, r)
        | l1 => (parseItems f l1).map (fun p => (Json.arr p.1, p.2))
      else if (c :: '\x00' :: rest).take 4 = ['n', 'u', 'l', 'l'] then
        some (Json.null, (c :: '\x00' :: rest).drop 4)
      else if (c :: '\x00' :: rest).take 4 = ['t', 'r', 'u', 'e'] then
        some (Json.bool true, (c :: '\x00' :: rest).drop 4)
      else if (c :: '\x00' :: rest).take 5 = ['f', 'a', 'l', 's', 'e'] then
        some (Json.bool false, (c :: '\x00' :: rest).drop 5)
      else
        match parseNumber (c :: '\x00' :: rest) with
        | some r => some r
        | none =>
          if (c :: '\x00' :: rest).take 3 = ['N', 'a', 'N'] then
            some (Json.fnum ['N', 'a', 'N'], (c :: '\x00' :: rest).drop 3)
          else if (c :: '\x00' :: rest).take 8 = ['I', 'n', 'f', 'i', 'n', 'i', 't', 'y'] then
            some (Json.fnum ['I', 'n', 'f', 'i', 'n', 'i', 't', 'y'],
              (c :: '\x00' :: rest).drop 8)
          else if (c :: '\x00' :: rest).take 9 =
              ['-', 'I', 'n', 'f', 'i', 'n', 'i', 't', 'y'] then
            some (Json.fnum ['-', 'I', 'n', 'f', 'i', 'n', 'i', 't', 'y'],
              (c :: '\x00' :: rest).drop 9)
          else none) from rfl] at h
    rw [skipWs_nul] at h
    repeat' split at h
    all_goals try simp_all [parseStringBody_nul, parseMembers_nul, parseItems_nul]
    all_goals exact parseNumber_nul2 (by assumption)

/-! ## Encoding detection on UTF-8 encodings of parseable text -/

theorem isWs_ascii {c : Char} (h : isWs c = true) :
    0 < c.toNat ∧ c.toNat < 0x80 := by
  simp [isWs] at h
  rcases h with ((h | h) | h) | h <;> subst h <;> decide

theorem utf8Char_ascii {c : Char} (h : c.toNat < 0x80) : utf8Char c = [c.toNat] := by
  simp [utf8Char, h]

theorem char_toNat_zero {c : Char} (h : c.toNat = 0) : c = '\x00' := by
  have h2 := Char.ofNat_toNat c
  rw [h] at h2
  exact h2.symm

theorem utf8Char_head {c : Char} (hc : c ≠ '\x00') :
    ∃ b tl, utf8Char c = b :: tl ∧ 0 < b := by
  have h0 : c.toNat ≠ 0 := fun h => hc (char_toNat_zero h)
  unfold utf8Char
  split
  · exact ⟨c.toNat, [], rfl, Nat.pos_of_ne_zero h0⟩
  · split
    · exact ⟨_, _, rfl, by omega⟩
    · split
      · exact ⟨_, _, rfl, by omega⟩
      · exact ⟨_, _, rfl, by omega⟩

theorem detect_single (b0 : Nat) : detectEncoding [b0] = Enc.utf8 := by
  unfold detectEncoding
  simp

theorem detect_utf8 (b0 b1 : Nat) (tl : List Nat)
    (h0 : 0 < b0) (h0a : b0 < 0x80) (h1 : b1 ≠ 0) :
    detectEncoding (b0 :: b1 :: tl) = Enc.utf8 := by
  unfold detectEncoding
  rw [if_neg, if_neg, if_neg]
  · match tl with
    | [] =>
      show (if b0 = 0 then Enc.utf16be else if b1 = 0 then Enc.utf16le else Enc.utf8) =
        Enc.utf8
      rw [if_neg (by omega), if_neg h1]
    | [b2] => rfl
    | b2 :: b3 :: tl2 =>
      show (if b0 = 0 then (if b1 ≠ 0 then Enc.utf16be else Enc.utf32be)
        else if b1 = 0 then (if b2 ≠ 0 ∨ b3 ≠ 0 then Enc.utf16le else Enc.utf32le)
        else Enc.utf8) = Enc.utf8
      rw [if_neg (by omega), if_neg h1]
  · intro hcon
    simp at hcon
    exact absurd hcon.1 (by omega)
  · intro hcon
    rcases hcon with hcon | hcon <;> simp at hcon <;> exact absurd hcon.1 (by omega)
  · intro hcon
    rcases hcon with hcon | hcon <;> simp at hcon <;> exact absurd hcon.1 (by omega)

theorem loads_detect {t : String} {v : Json} (h : loads t = some v) :
    detectEncoding (utf8Encode t) = Enc.utf8 := by
  unfold loads loadsChars at h
  rcases hm : parseVal (2 * t.data.length + 2) (skipWs t.data) with _ | ⟨⟨w, r⟩⟩
  · rw [hm] at h
    simp at h
  · rw [hm] at h
    simp only [] at h
    split at h
    · rename_i htail
      unfold utf8Encode utf8Chars
      rcases hd : t.data with _ | ⟨c0, l1⟩
      · rw [hd] at hm
        rw [show skipWs ([] : List Char) = [] from rfl, parseVal_nil] at hm
        simp at hm
      · rw [hd] at hm
        have hb0 : 0 < c0.toNat ∧ c0.toNat < 0x80 := by
          by_cases hw0 : isWs c0 = true
          · exact isWs_ascii hw0
          · rw [skipWs_not_ws (Bool.not_eq_true _ ▸ hw0) l1] at hm
            obtain ⟨c, cs, heq, hr1, hr2⟩ := parseVal_head hm
            injection heq with he1 _
            subst he1
            exact ⟨by omega, by omega⟩
        rcases l1 with _ | ⟨c1, rest⟩
        · simp only [List.foldr]
          rw [utf8Char_ascii hb0.2]
          exact detect_single c0.toNat
        · have hc1 : c1 ≠ '\x00' := by
            intro h1
            subst h1
            by_cases hw0 : isWs c0 = true
            · rw [show skipWs (c0 :: '\x00' :: rest) = skipWs ('\x00' :: rest) from by
                simp [skipWs, hw0], skipWs_nul] at hm
              exact absurd hm (by rw [parseVal_nul]; simp)
            · rw [skipWs_not_ws (Bool.not_eq_true _ ▸ hw0) _] at hm
              have hr := parseVal_nul2 hm
              simp at hr
              rw [hr, skipWs_nul] at htail
              simp at htail
          simp only [List.foldr]
          rw [utf8Char_ascii hb0.2]
          obtain ⟨b1, tl, hb1, hb1pos⟩ := utf8Char_head hc1
          rw [hb1]
          simp only [List.cons_append, List.nil_append]
          exact detect_utf8 _ _ _ hb0.1 hb0.2 (by omega)
    · simp at h

/-! ## The round trip through the whole program -/

theorem utf8Char_lt256 (c : Char) : ∀ b ∈ utf8Char c, b < 256 := by
  have hv : c.toNat < 0x110000 := by
    rcases char_valid_nat c with h | h <;> omega
  unfold utf8Char
  split
  · intro b hb; simp at hb; omega
  · split
    · intro b hb; simp at hb; rcases hb with hb | hb <;> omega
    · split
      · intro b hb; simp at hb; rcases hb with hb | hb | hb <;> omega
      · intro b hb; simp at hb; rcases hb with hb | hb | hb | hb <;> omega

theorem utf8Encode_lt256 (t : String) : ∀ b ∈ utf8Encode t, b < 256 := by
  unfold utf8Encode utf8Chars
  induction t.data with
  | nil => simp
  | cons c cs ih =>
    intro b hb
    simp only [List.foldr_cons, List.mem_append] at hb
    rcases hb with hb | hb
    · exact utf8Char_lt256 c b hb
    · exact ih b hb

/-- Round trip through the whole program, for float-free values: when
the token file holds the base64 encoding of byte values below 256 that
`json.loads` decodes and parses to a well-formed float-free value `v`,
the run exits normally printing `dumps v` plus a newline, and parsing
that printed text as JSON yields exactly `v` again — structure, key
order and scalars preserved, differing only in whitespace.  Values with
float leaves are outside this lemma: their serialization goes through
Python float `repr`, which the embedding does not model. -/
theorem roundtrip_structural
    (env : String → Option String) (pwHome : String) (prog ident : String)
    (args : List String) (fs : String → Option String) (bs : List Nat) (v : Json)
    (hbytes : ∀ b ∈ bs, b < 256)
    (hfs : fs (resolvePath (tokenPath (homeDir env pwHome) ident)) =
      some (b64encodeStr bs))
    (hl : loadsBytes bs = some v)
    (hwf : wfJ v = true) (hff : floatFree v = true) :
    run env pwHome (prog :: ident :: args) fs = some (dumps v ++ "\n") ∧
    loads (dumps v ++ "\n") = some v := by
  refine ⟨?_, loads_dumps v hwf hff⟩
  unfold run runT
  simp only []
  rw [hfs]
  simp only []
  rw [b64decode_b64encode _ hbytes]
  simp only []
  rw [hl]

set_option maxRecDepth 40000 in
theorem roundtrip_structural_witness :
    run (fun _ => none) "/h" ["prog", "id"] (fun q =>
      if q = "/h/AppData/Local/tupy/spotify.id.token"
        then some (b64encodeStr (utf8Encode "[1, 2]")) else none) =
      some (dumps (Json.arr (JArr.cons (Json.num 1) (JArr.cons (Json.num 2) JArr.nil))) ++
        "\n") ∧
    loads (dumps (Json.arr (JArr.cons (Json.num 1) (JArr.cons (Json.num 2) JArr.nil))) ++
        "\n") =
      some (Json.arr (JArr.cons (Json.num 1) (JArr.cons (Json.num 2) JArr.nil))) :=
  roundtrip_structural (fun _ => none) "/h" "prog" "id" [] _ (utf8Encode "[1, 2]")
    (Json.arr (JArr.cons (Json.num 1) (JArr.cons (Json.num 2) JArr.nil)))
    (by decide) (by decide) (by decide) (by decide) (by decide)

end DecodeToken
